import Mathlib

/-!
Verification development for a small multi-user flashcard web application
(Flask + SQLAlchemy, `app.py`).  The relational store is shallowly embedded
as lists of records; each HTTP handler becomes a pure function from the
store (plus the authenticated user's id and the request payload) to a
status code and the store after the request.  SQLAlchemy sessions are
rolled back at request teardown when the handler returns without
committing, so handlers that exit through an error path before
`db.session.commit()` return the store unchanged.

Recursive traversals in the source (`get_topic_scope`'s worklist and
`delete_topic`'s `delete_recursive`) have no termination guarantee on
cyclic parent graphs, so they are embedded with an explicit fuel
parameter returning `Option`; divergence of the Python code corresponds
to the embedding returning `none` for every fuel.
-/

namespace Flashcards

/-- A row of the `Topic` table: id, name, owning user id, optional parent
topic id, integer order key. -/
structure Topic where
  id : Nat
  name : String
  user_id : Nat
  parent_id : Option Nat
  order : Int
  deriving DecidableEq, Repr

/-- A row of the `Card` table. -/
structure Card where
  id : Nat
  category : String
  front : String
  back : String
  user_id : Nat
  topic_id : Option Nat
  deriving DecidableEq, Repr

/-- The relational store: the `Topic` and `Card` tables. -/
structure St where
  topics : List Topic
  cards : List Card
  deriving DecidableEq, Repr

/-- `Topic.query.filter_by(user_id=u).all()`. -/
def topicsOf (st : St) (u : Nat) : List Topic :=
  st.topics.filter (fun t => t.user_id == u)

/-- `Card.query.filter_by(user_id=u).all()`. -/
def cardsOf (st : St) (u : Nat) : List Card :=
  st.cards.filter (fun c => c.user_id == u)

/-- The `children_map` lookup of `get_topic_scope`: ids of the topics in
`ts` whose `parent_id` is `some c` (`children_map[c]`, empty when the key
is absent). -/
def childIds (ts : List Topic) (c : Nat) : List Nat :=
  (ts.filter (fun t => t.parent_id == some c)).map (·.id)

/-- The `while stack:` worklist loop of `get_topic_scope`.  Python pops
from the end of the list; here the head of `stack` is the top, so
`stack.extend(children)` becomes prepending the reversed child list.
`fuel` bounds the number of iterations; the source has no such bound and
the loop diverges exactly when every fuel yields `none`. -/
def scopeLoop (ts : List Topic) : Nat → List Nat → List Nat → Option (List Nat)
  | _, scope, [] => some scope
  | 0, _, _ :: _ => none
  | fuel + 1, scope, curr :: rest =>
      scopeLoop ts fuel (scope ++ childIds ts curr) ((childIds ts curr).reverse ++ rest)

/-- `get_topic_scope(root)` inside `get_cards`: the children map is built
over the current user's topics only, and both `scope` and `stack` start
as `[root_id]`. -/
def getTopicScope (st : St) (u : Nat) (root : Nat) (fuel : Nat) : Option (List Nat) :=
  scopeLoop (topicsOf st u) fuel [root] [root]

/-- `GET /api/cards` (`get_cards`).  `topicParam` is the already-parsed
optional `topic_id` query parameter.  The result is the JSON card list;
`none` models divergence of the scope traversal. -/
def getCards (st : St) (u : Nat) (topicParam : Option Nat) (fuel : Nat) :
    Option (List Card) :=
  let base := st.cards.filter (fun c => c.user_id == u)
  match topicParam with
  | some tid =>
      (getTopicScope st u tid fuel).map (fun scope =>
        base.filter (fun c =>
          match c.topic_id with
          | some p => scope.contains p
          | none => false))
  | none =>
      match st.topics.find? (fun t => t.user_id == u && t.name == "My Flashcards") with
      | some dt =>
          (getTopicScope st u dt.id fuel).map (fun scope =>
            base.filter (fun c =>
              match c.topic_id with
              | some p => scope.contains p
              | none => true))
      | none => some (base.filter (fun c => c.topic_id == none))

instance decidableBAllOption {α : Type} (P : α → Prop) [DecidablePred P]
    (o : Option α) : Decidable (∀ p ∈ o, P p) :=
  match o with
  | none => isTrue (by simp)
  | some a => decidable_of_iff (P a) (by simp)

/-- One child-link step between topic ids, as used by the traversal:
`b` is a direct child of `a` in the topic list `ts`. -/
def ChildStep (ts : List Topic) (a b : Nat) : Prop :=
  b ∈ childIds ts a

/-- Transitive-reflexive reachability along child links: the subtree of a
root id. -/
def Reach (ts : List Topic) (a b : Nat) : Prop :=
  Relation.ReflTransGen (ChildStep ts) a b

/-- A topological-rank certificate: children rank strictly above their
parents.  Its existence is equivalent, over a finite topic list, to the
absence of directed parent-link cycles. -/
def RankCert (ts : List Topic) (rank : Nat → Nat) : Prop :=
  ∀ t ∈ ts, ∀ p ∈ t.parent_id, rank p < rank t.id

instance (ts : List Topic) (rank : Nat → Nat) : Decidable (RankCert ts rank) := by
  unfold RankCert; infer_instance

/-- A finite topic set is acyclic when it admits a topological rank. -/
def Acyclic (ts : List Topic) : Prop :=
  ∃ rank, RankCert ts rank

/-- The scope traversal terminates from the given root. -/
def ScopeTerminates (st : St) (u : Nat) (root : Nat) : Prop :=
  ∃ fuel res, getTopicScope st u root fuel = some res

/-! ### Topic mutation handlers -/

/-- Payload of `POST /api/topics`. -/
structure TopicCreate where
  name : String
  parent_id : Option Nat
  deriving DecidableEq, Repr

/-- Payload of `PUT /api/topics/{id}`; the outer `Option` is key
presence, the inner value of `parent_id` may be JSON `null`. -/
structure TopicUpdate where
  name : Option String
  order : Option Int
  parent_id : Option (Option Nat)
  deriving DecidableEq, Repr

/-- One entry of the `PUT /api/topics/reorder` payload.  `order` is
required (a missing key raises in the source); `parent_id` is optional
and may be `null`. -/
structure ReorderItem where
  id : Nat
  order : Int
  parent_id : Option (Option Nat)
  deriving DecidableEq, Repr

/-- SQLite autoincrement for the `Topic` table: one more than the largest
existing id. -/
def nextTopicId (st : St) : Nat :=
  (st.topics.map (·.id)).foldr max 0 + 1

/-- SQLite autoincrement for the `Card` table. -/
def nextCardId (st : St) : Nat :=
  (st.cards.map (·.id)).foldr max 0 + 1

/-- `POST /api/topics` (`create_topic`).  The source guards the parent
lookup with Python truthiness (`if parent_id:`), so a parent id of `0`
skips validation and is stored as-is. -/
def create_topic (st : St) (u : Nat) (data : TopicCreate) : Nat × St :=
  let valid : Bool :=
    match data.parent_id with
    | some p =>
        if p == 0 then true
        else
          match st.topics.find? (fun t => t.id == p) with
          | some parent => parent.user_id == u
          | none => false
    | none => true
  if valid then
    (200, { st with topics := st.topics ++ [⟨nextTopicId st, data.name, u, data.parent_id, 999⟩] })
  else (400, st)

/-- The `if 'name' in data:` assignment of `update_topic`. -/
def applyName (t : Topic) (n : Option String) : Topic :=
  match n with
  | some s => { t with name := s }
  | none => t

/-- The `if 'order' in data:` assignment of `update_topic`. -/
def applyOrder (t : Topic) (o : Option Int) : Topic :=
  match o with
  | some v => { t with order := v }
  | none => t

/-- `PUT /api/topics/{id}` (`update_topic`).  The source assigns `name`
and `order` to the session object before checking `parent_id == id`, but
the session is rolled back (never committed) on the 400 path, so the
store is returned unchanged there. -/
def update_topic (st : St) (u : Nat) (i : Nat) (data : TopicUpdate) : Nat × St :=
  match st.topics.find? (fun t => t.id == i) with
  | none => (404, st)
  | some topic =>
      if topic.user_id != u then (403, st)
      else
        let t2 := applyOrder (applyName topic data.name) data.order
        match data.parent_id with
        | some np =>
            if np == some topic.id then (400, st)
            else
              (200, { st with
                topics := st.topics.map (fun t => if t.id == i then { t2 with parent_id := np } else t) })
        | none =>
            (200, { st with
              topics := st.topics.map (fun t => if t.id == i then t2 else t) })

/-- One iteration of the `reorder_topics` loop: `Topic.query.get(item.id)`
followed by the ownership guard, the unconditional `order` assignment and
the self-parent guard on `parent_id`. -/
def reorderApply (u : Nat) (ts : List Topic) (item : ReorderItem) : List Topic :=
  ts.map (fun t =>
    if t.id == item.id && t.user_id == u then
      match item.parent_id with
      | some p =>
          if p != some t.id then { t with order := item.order, parent_id := p }
          else { t with order := item.order }
      | none => { t with order := item.order }
    else t)

/-- `PUT /api/topics/reorder` (`reorder_topics`) on an already-parsed
list payload: entries whose topic is missing or foreign are skipped, and
the handler always answers 200. -/
def reorder_topics (st : St) (u : Nat) (data : List ReorderItem) : Nat × St :=
  (200, { st with topics := data.foldl (reorderApply u) st.topics })

/-- The `for child in children:` loop of `delete_recursive`: the child
list was fetched before the loop while the store keeps shrinking.  `rec`
is the recursive call on one child (`deleteRec` at the next smaller
fuel). -/
def deleteRecList (rec : St → Topic → Option (St × List Nat)) :
    List Topic → St → Option (St × List Nat)
  | [], st => some (st, [])
  | c :: cs, st =>
      match rec st c with
      | none => none
      | some (st1, o1) =>
          match deleteRecList rec cs st1 with
          | none => none
          | some (st2, o2) => some (st2, o1 ++ o2)

/-- The recursive body of `delete_topic` (`delete_recursive`), with fuel
bounding the recursion depth.  Children are re-queried from the current
store at each call; deleting a row removes every row with that primary
key.  The returned id list records the order of `db.session.delete`
calls on topics. -/
def deleteRec : Nat → St → Topic → Option (St × List Nat)
  | 0, _, _ => none
  | fuel + 1, st, t =>
      match deleteRecList (deleteRec fuel)
          (st.topics.filter (fun c => c.parent_id == some t.id)) st with
      | none => none
      | some (st1, ord) =>
          some ({ topics := st1.topics.filter (fun x => x.id != t.id),
                  cards := st1.cards.filter (fun c => c.topic_id != some t.id) },
                ord ++ [t.id])

/-- `DELETE /api/topics/{id}` (`delete_topic`). -/
def delete_topic (st : St) (u : Nat) (i : Nat) (fuel : Nat) :
    Option (Nat × St × List Nat) :=
  match st.topics.find? (fun t => t.id == i) with
  | none => some (404, st, [])
  | some topic =>
      if topic.user_id != u then some (403, st, [])
      else
        match deleteRec fuel st topic with
        | none => none
        | some (st1, ord) => some (200, st1, ord)

/-! ### Card mutation handlers -/

/-- Payload of `PUT /api/cards/{id}`; string fields use `.get` with the
current value as default, `topic_id`'s outer `Option` is key presence and
the inner one distinguishes `null` from an id. -/
structure CardUpdate where
  category : Option String
  front : Option String
  back : Option String
  topic_id : Option (Option Nat)
  deriving DecidableEq, Repr

/-- `PUT /api/cards/{id}` (`update_card`).  Field assignments before the
`'Invalid topic'` 400 are rolled back with the uncommitted session, so
that path returns the store unchanged. -/
def update_card (st : St) (u : Nat) (i : Nat) (data : CardUpdate) : Nat × St :=
  match st.cards.find? (fun c => c.id == i) with
  | none => (404, st)
  | some card =>
      if card.user_id != u then (403, st)
      else
        let c1 : Card := { card with
          category := data.category.getD card.category,
          front := data.front.getD card.front,
          back := data.back.getD card.back }
        let put (c2 : Card) : Nat × St :=
          (200, { st with cards := st.cards.map (fun c => if c.id == i then c2 else c) })
        match data.topic_id with
        | none => put c1
        | some none =>
            let dt := st.topics.find? (fun t => t.user_id == u && t.name == "My Flashcards")
            put { c1 with topic_id := dt.map (·.id) }
        | some (some tid) =>
            match st.topics.find? (fun t => t.id == tid) with
            | some t => if t.user_id == u then put { c1 with topic_id := some tid } else (400, st)
            | none => (400, st)

/-! ### Import and export -/

/-- One JSON object of an import document.  Values are modelled as
strings; a field is `some v` when the key is present (JSON `null` values
for the text keys are not modelled).  Python truthiness of a value is
`v != ""`. -/
structure ImportItem where
  category : Option String
  front : Option String
  back : Option String
  prompt : Option String
  completion : Option String
  topic : Option String
  deriving DecidableEq, Repr

/-- The text-pair selection of `import_cards`: the `prompt`/`completion`
branch is tested first (`if 'prompt' in card_data and 'completion' in
card_data`), the `front`/`back` branch only in the `elif`. -/
def pickPair (it : ImportItem) : Option (String × String) :=
  if it.prompt.isSome && it.completion.isSome then
    some (it.prompt.getD "", it.completion.getD "")
  else if it.front.isSome && it.back.isSome then
    some (it.front.getD "", it.back.getD "")
  else none

/-- Target-topic resolution of one import item, possibly committing a new
topic (order 999) mid-batch to obtain its id. -/
def resolveImportTopic (u : Nat) (forced : Option Nat) (st : St) (it : ImportItem) :
    St × Option Nat :=
  match forced with
  | some fid => (st, some fid)
  | none =>
      let fallback : St × Option Nat :=
        (st, (st.topics.find? (fun t => t.user_id == u && t.name == "My Flashcards")).map (·.id))
      match it.topic with
      | some tname =>
          if tname != "" then
            match st.topics.find? (fun t => t.user_id == u && t.name == tname) with
            | some t => (st, some t.id)
            | none =>
                let nid := nextTopicId st
                ({ st with topics := st.topics ++ [⟨nid, tname, u, none, 999⟩] }, some nid)
          else fallback
      | none => fallback

/-- Processing of one import item: select the text pair, check value
truthiness, resolve the topic and insert the card; returns the store and
whether a card was inserted (the `count += 1`). -/
def importItemStep (u : Nat) (forced : Option Nat) (st : St) (it : ImportItem) : St × Nat :=
  match pickPair it with
  | none => (st, 0)
  | some (f, b) =>
      if f != "" && b != "" then
        let r := resolveImportTopic u forced st it
        ({ r.1 with
          cards := r.1.cards ++ [⟨nextCardId r.1, it.category.getD "Imported", f, b, u, r.2⟩] }, 1)
      else (st, 0)

/-- The `for card_data in cards_data:` loop of `import_cards`. -/
def importLoop (u : Nat) (forced : Option Nat) : St → Nat → List ImportItem → Nat × St
  | st, count, [] => (count, st)
  | st, count, it :: rest =>
      let r := importItemStep u forced st it
      importLoop u forced r.1 (count + r.2) rest

/-- `POST /api/cards/import` (`import_cards`) on an already-parsed list
document: status 201, the reported insert count and the final store. -/
def import_cards (st : St) (u : Nat) (forced : Option Nat) (items : List ImportItem) :
    Nat × Nat × St :=
  let r := importLoop u forced st 0 items
  (201, r.1, r.2)

/-- One element of the export document. -/
structure ExportItem where
  category : String
  front : String
  back : String
  topic : Option String
  deriving DecidableEq, Repr

/-- `GET /account/export` (`export_cards`): all of the caller's cards,
with the `topic` key present exactly when the card's topic relationship
resolves to a row. -/
def export_cards (st : St) (u : Nat) : List ExportItem :=
  (st.cards.filter (fun c => c.user_id == u)).map (fun c =>
    ⟨c.category, c.front, c.back,
      (c.topic_id.bind (fun tid => st.topics.find? (fun t => t.id == tid))).map (·.name)⟩)

/-- Parsing an exported object back as an import item: the keys written
by `export_cards` and no others. -/
def toImportItem (e : ExportItem) : ImportItem :=
  ⟨some e.category, some e.front, some e.back, none, none, e.topic⟩

/-! ### Store invariants -/

/-- The data-model invariant on parents: a topic's parent id, if set,
refers to an existing topic of the same user. -/
def ParentOwnedInv (st : St) : Prop :=
  ∀ t ∈ st.topics, ∀ p ∈ t.parent_id, ∃ t' ∈ st.topics, t'.id = p ∧ t'.user_id = t.user_id

/-- No topic is its own parent. -/
def NoSelfParent (st : St) : Prop :=
  ∀ t ∈ st.topics, t.parent_id ≠ some t.id

/-- The combined topic-tree invariant claimed for the mutation service. -/
def TopicInv (st : St) : Prop :=
  ParentOwnedInv st ∧ NoSelfParent st

/-- Topic ids form a primary key. -/
def NodupIds (st : St) : Prop :=
  (st.topics.map (·.id)).Nodup

/-- Parent links never cross user boundaries (the id-level reading of the
same-user invariant, allowing dangling parents). -/
def SameUserParents (st : St) : Prop :=
  ∀ t ∈ st.topics, ∀ p ∈ t.parent_id, ∀ t' ∈ st.topics, t'.id = p → t'.user_id = t.user_id

instance (st : St) : Decidable (ParentOwnedInv st) := by
  unfold ParentOwnedInv; infer_instance

instance (st : St) : Decidable (NoSelfParent st) := by
  unfold NoSelfParent; infer_instance

instance (st : St) : Decidable (TopicInv st) := by
  unfold TopicInv; infer_instance

instance (st : St) : Decidable (NodupIds st) := by
  unfold NodupIds; infer_instance

instance (st : St) : Decidable (SameUserParents st) := by
  unfold SameUserParents; infer_instance

/-! ### Concrete stores for witnesses and counterexamples -/

/-- The `{category, front, back}` triple of a card. -/
def cardTriple (c : Card) : String × String × String :=
  (c.category, c.front, c.back)

/-- Id of the user's default topic, when one exists. -/
def defaultTopicId (st : St) (u : Nat) : Option Nat :=
  (st.topics.find? (fun t => t.user_id == u && t.name == "My Flashcards")).map (·.id)

/-- A small well-formed two-user store. -/
def stW : St :=
  ⟨[⟨1, "My Flashcards", 1, none, 0⟩, ⟨2, "B", 1, some 1, 1⟩, ⟨3, "D", 2, none, 0⟩],
   [⟨1, "g", "f1", "b1", 1, some 2⟩, ⟨2, "g", "f2", "b2", 2, some 3⟩]⟩

/-- Two topics of one user whose parent links form a two-cycle. -/
def stC : St :=
  ⟨[⟨1, "a", 1, some 2, 0⟩, ⟨2, "b", 1, some 1, 0⟩], []⟩

/-- A store whose only topic belongs to user 2. -/
def stForeign : St :=
  ⟨[⟨1, "A", 2, none, 0⟩], []⟩

/-- Two root topics of two different users. -/
def stTwoUsers : St :=
  ⟨[⟨1, "A", 1, none, 0⟩, ⟨2, "B", 2, none, 0⟩], []⟩

/-- A store holding one card whose front text is empty. -/
def stEmptyFront : St :=
  ⟨[⟨1, "My Flashcards", 1, none, 0⟩], [⟨1, "General", "", "A", 1, none⟩]⟩

/-- The empty store. -/
def st0 : St := ⟨[], []⟩

/-! ### Basic lemmas -/

lemma le_foldr_max {l : List Nat} {x : Nat} (hx : x ∈ l) : x ≤ l.foldr max 0 := by
  induction l with
  | nil => cases hx
  | cons a l ih =>
      rcases List.mem_cons.mp hx with h | h
      · subst h; exact le_max_left _ _
      · exact le_trans (ih h) (le_max_right _ _)

lemma mem_childIds {ts : List Topic} {a b : Nat} :
    b ∈ childIds ts a ↔ ∃ t ∈ ts, t.parent_id = some a ∧ t.id = b := by
  simp only [childIds, List.mem_map, List.mem_filter, beq_iff_eq]
  constructor
  · rintro ⟨t, ⟨ht, hp⟩, hid⟩
    exact ⟨t, ht, hp, hid⟩
  · rintro ⟨t, ht, hp, hid⟩
    exact ⟨t, ⟨ht, hp⟩, hid⟩

lemma childIds_length_le (ts : List Topic) (a : Nat) :
    (childIds ts a).length ≤ ts.length := by
  simpa [childIds] using List.length_filter_le _ ts

lemma rank_lt_of_childStep {ts : List Topic} {rank : Nat → Nat} {a b : Nat}
    (hcert : RankCert ts rank) (h : ChildStep ts a b) : rank a < rank b := by
  rcases mem_childIds.mp h with ⟨t, ht, hp, hid⟩
  have := hcert t ht a (by simp [hp])
  simpa [hid] using this

lemma rank_le_of_reach {ts : List Topic} {rank : Nat → Nat} {a b : Nat}
    (hcert : RankCert ts rank) (h : Reach ts a b) : rank a ≤ rank b := by
  induction h with
  | refl => exact le_rfl
  | tail _ hstep ih => exact le_trans ih (le_of_lt (rank_lt_of_childStep hcert hstep))

lemma reach_cases_target {ts : List Topic} {root y : Nat} (h : Reach ts root y) :
    y = root ∨ ∃ t ∈ ts, t.id = y := by
  rcases Relation.ReflTransGen.cases_tail h with h | ⟨c, _, hstep⟩
  · exact Or.inl h
  · rcases mem_childIds.mp hstep with ⟨t, ht, _, hid⟩
    exact Or.inr ⟨t, ht, hid⟩

/-- Subsets preserve rank certificates. -/
lemma rankCert_subset {ts ts' : List Topic} {rank : Nat → Nat}
    (hsub : ∀ t ∈ ts', t ∈ ts) (hcert : RankCert ts rank) : RankCert ts' rank :=
  fun t ht p hp => hcert t (hsub t ht) p hp

/-! ### Termination of the scope worklist -/

lemma scopeLoop_total {ts : List Topic} {rank : Nat → Nat} {B : Nat}
    (hcert : RankCert ts rank) (hids : ∀ t ∈ ts, rank t.id ≤ B) :
    ∀ fuel stack scope, (∀ x ∈ stack, rank x ≤ B) →
      (stack.map (fun x => (ts.length + 1) ^ (B + 1 - rank x))).sum ≤ fuel →
      ∃ res, scopeLoop ts fuel scope stack = some res := by
  intro fuel
  induction fuel with
  | zero =>
      intro stack scope hB hsum
      match stack with
      | [] => exact ⟨scope, rfl⟩
      | x :: rest =>
          exfalso
          have hpos : 0 < (ts.length + 1) ^ (B + 1 - rank x) :=
            pow_pos (Nat.succ_pos _) _
          simp only [List.map_cons, List.sum_cons, Nat.le_zero] at hsum
          omega
  | succ fuel ih =>
      intro stack scope hB hsum
      match stack with
      | [] => exact ⟨scope, rfl⟩
      | curr :: rest =>
          show ∃ res,
            scopeLoop ts fuel (scope ++ childIds ts curr)
              ((childIds ts curr).reverse ++ rest) = some res
          apply ih
          · intro x hx
            rcases List.mem_append.mp hx with hx | hx
            · rcases mem_childIds.mp (List.mem_reverse.mp hx) with ⟨t, ht, _, hid⟩
              exact hid ▸ hids t ht
            · exact hB x (List.mem_cons_of_mem _ hx)
          · -- the multiset measure drops by at least one
            set K := ts.length + 1 with hK
            have hcurr : rank curr ≤ B := hB curr (List.mem_cons_self _ _)
            have hsplit : B + 1 - rank curr = (B - rank curr) + 1 := by omega
            have hchild : ∀ x ∈ childIds ts curr,
                K ^ (B + 1 - rank x) ≤ K ^ (B - rank curr) := by
              intro x hx
              apply Nat.pow_le_pow_right (Nat.succ_pos _)
              have := rank_lt_of_childStep hcert (hx : ChildStep ts curr x)
              omega
            have hlen : (childIds ts curr).length ≤ ts.length :=
              childIds_length_le ts curr
            have hsumch :
                ((childIds ts curr).map (fun x => K ^ (B + 1 - rank x))).sum ≤
                  ts.length * K ^ (B - rank curr) := by
              calc ((childIds ts curr).map (fun x => K ^ (B + 1 - rank x))).sum
                  ≤ ((childIds ts curr).map (fun x => K ^ (B + 1 - rank x))).length •
                      K ^ (B - rank curr) := by
                    apply List.sum_le_card_nsmul
                    intro x hx
                    rcases List.mem_map.mp hx with ⟨y, hy, hxy⟩
                    exact hxy ▸ hchild y hy
                _ = (childIds ts curr).length * K ^ (B - rank curr) := by
                    simp [smul_eq_mul]
                _ ≤ ts.length * K ^ (B - rank curr) :=
                    Nat.mul_le_mul_right _ hlen
            have hEpos : 1 ≤ K ^ (B - rank curr) := Nat.one_le_pow _ _ (Nat.succ_pos _)
            have hrev :
                (((childIds ts curr).reverse ++ rest).map
                    (fun x => K ^ (B + 1 - rank x))).sum =
                  ((childIds ts curr).map (fun x => K ^ (B + 1 - rank x))).sum +
                    (rest.map (fun x => K ^ (B + 1 - rank x))).sum := by
              rw [List.map_append, List.sum_append, List.map_reverse, List.sum_reverse]
            have hold :
                ((curr :: rest).map (fun x => K ^ (B + 1 - rank x))).sum =
                  K ^ (B + 1 - rank curr) +
                    (rest.map (fun x => K ^ (B + 1 - rank x))).sum := by
              simp
            have hKE : K ^ (B + 1 - rank curr) = K * K ^ (B - rank curr) := by
              rw [hsplit, pow_succ, Nat.mul_comm]
            rw [hrev]
            rw [hold, hKE] at hsum
            have : ts.length * K ^ (B - rank curr) + 1 ≤ K * K ^ (B - rank curr) := by
              have : ts.length * K ^ (B - rank curr) + K ^ (B - rank curr) =
                  K * K ^ (B - rank curr) := by
                rw [hK]; ring
              omega
            omega

/-- On an acyclic topic set the worklist traversal of `get_topic_scope`
terminates from every root. -/
lemma getTopicScope_total (st : St) (u root : Nat)
    (h : Acyclic (topicsOf st u)) :
    ∃ fuel res, getTopicScope st u root fuel = some res := by
  obtain ⟨rank, hcert⟩ := h
  set ts := topicsOf st u with hts
  set B := ((root :: ts.map (·.id)).map rank).foldr max 0 with hB
  have hids : ∀ t ∈ ts, rank t.id ≤ B := by
    intro t ht
    apply le_foldr_max
    exact List.mem_map_of_mem rank (List.mem_cons_of_mem _ (List.mem_map_of_mem _ ht))
  have hroot : rank root ≤ B :=
    le_foldr_max (List.mem_map_of_mem rank (List.mem_cons_self _ _))
  obtain ⟨res, hres⟩ :=
    scopeLoop_total hcert hids ((ts.length + 1) ^ (B + 1 - rank root)) [root] [root]
      (by intro x hx; rcases List.mem_singleton.mp hx with rfl; exact hroot)
      (by simp)
  exact ⟨_, res, hres⟩

/-! ### Soundness and completeness of the scope worklist -/

lemma scopeLoop_mem {ts : List Topic} {root : Nat} :
    ∀ fuel scope stack res,
      scopeLoop ts fuel scope stack = some res →
      (∀ x ∈ stack, x ∈ scope) →
      (∀ x ∈ scope, Reach ts root x) →
      (∀ y, Reach ts root y → y ∈ scope ∨ ∃ x ∈ stack, Reach ts x y) →
      ∀ y, y ∈ res ↔ Reach ts root y := by
  intro fuel
  induction fuel with
  | zero =>
      intro scope stack res hrun hsub hsound hcompl y
      match stack, hrun with
      | [], hrun =>
          cases hrun
          constructor
          · exact fun hy => hsound y hy
          · intro hy
            rcases hcompl y hy with h | ⟨x, hx, _⟩
            · exact h
            · cases hx
  | succ fuel ih =>
      intro scope stack res hrun hsub hsound hcompl y
      match stack, hrun with
      | [], hrun =>
          cases hrun
          constructor
          · exact fun hy => hsound y hy
          · intro hy
            rcases hcompl y hy with h | ⟨x, hx, _⟩
            · exact h
            · cases hx
      | curr :: rest, hrun =>
          have hcurr : Reach ts root curr :=
            hsound curr (hsub curr (List.mem_cons_self _ _))
          refine ih (scope ++ childIds ts curr)
            ((childIds ts curr).reverse ++ rest) res hrun ?_ ?_ ?_ y
          · intro x hx
            rcases List.mem_append.mp hx with hx | hx
            · exact List.mem_append.mpr (Or.inr (List.mem_reverse.mp hx))
            · exact List.mem_append.mpr
                (Or.inl (hsub x (List.mem_cons_of_mem _ hx)))
          · intro x hx
            rcases List.mem_append.mp hx with hx | hx
            · exact hsound x hx
            · exact Relation.ReflTransGen.tail hcurr (hx : ChildStep ts curr x)
          · intro z hz
            rcases hcompl z hz with h | ⟨x, hx, hreach⟩
            · exact Or.inl (List.mem_append.mpr (Or.inl h))
            · rcases List.mem_cons.mp hx with rfl | hx
              · rcases Relation.ReflTransGen.cases_head hreach with rfl | ⟨c, hstep, htl⟩
                · exact Or.inl (List.mem_append.mpr
                    (Or.inl (hsub x (List.mem_cons_self _ _))))
                · refine Or.inr ⟨c, ?_, htl⟩
                  exact List.mem_append.mpr (Or.inl (List.mem_reverse.mpr hstep))
              · exact Or.inr ⟨x, List.mem_append.mpr (Or.inr hx), hreach⟩

/-- Whenever the fuelled traversal returns, its result is exactly the set
of ids reachable from the root along child links of the user's topics. -/
lemma getTopicScope_mem {st : St} {u root fuel : Nat} {res : List Nat}
    (hrun : getTopicScope st u root fuel = some res) :
    ∀ y, y ∈ res ↔ Reach (topicsOf st u) root y := by
  refine scopeLoop_mem fuel [root] [root] res hrun ?_ ?_ ?_
  · intro x hx; exact hx
  · intro x hx
    rcases List.mem_singleton.mp hx with rfl
    exact Relation.ReflTransGen.refl
  · intro y hy
    exact Or.inr ⟨root, List.mem_singleton.mpr rfl, hy⟩

/-! ### Claim C1: the Scope Resolver computes exactly the owned subtree -/

/-- C1: for every topic `T` owned by user `u` in a store whose topics for
`u` are finite and acyclic, `get_topic_scope T.id` returns a collection
that contains `T.id`, contains only ids of topics owned by `u` (never an
id of a topic owned by another user), and equals exactly the set of ids
reachable from `T` by following child links transitively. -/
theorem c1_scope_resolver_exact (st : St) (u : Nat) (T : Topic)
    (hT : T ∈ st.topics) (hu : T.user_id = u)
    (hacyc : Acyclic (topicsOf st u)) :
    ∃ fuel res, getTopicScope st u T.id fuel = some res ∧
      T.id ∈ res ∧
      (∀ y ∈ res, ∃ t ∈ st.topics, t.user_id = u ∧ t.id = y) ∧
      (∀ y, y ∈ res ↔ Reach (topicsOf st u) T.id y) := by
  obtain ⟨fuel, res, hrun⟩ := getTopicScope_total st u T.id hacyc
  have hmem := getTopicScope_mem hrun
  refine ⟨fuel, res, hrun, (hmem _).mpr Relation.ReflTransGen.refl, ?_, hmem⟩
  intro y hy
  rcases reach_cases_target ((hmem y).mp hy) with rfl | ⟨t, ht, hid⟩
  · exact ⟨T, hT, hu, rfl⟩
  · have h := List.mem_filter.mp ht
    exact ⟨t, h.1, by simpa using h.2, hid⟩

theorem c1_scope_resolver_exact_witness :
    ((⟨1, "My Flashcards", 1, none, 0⟩ : Topic) ∈ stW.topics ∧
      Acyclic (topicsOf stW 1)) ∧
    (∃ fuel res, getTopicScope stW 1 1 fuel = some res ∧
      1 ∈ res ∧
      (∀ y ∈ res, ∃ t ∈ stW.topics, t.user_id = 1 ∧ t.id = y) ∧
      (∀ y, y ∈ res ↔ Reach (topicsOf stW 1) 1 y)) :=
  ⟨⟨by decide, ⟨fun x => x, by decide⟩⟩,
    c1_scope_resolver_exact stW 1 ⟨1, "My Flashcards", 1, none, 0⟩
      (by decide) rfl ⟨fun x => x, by decide⟩⟩

/-! ### Claim C5: termination of the scope traversal -/

lemma stC_child1 : childIds (topicsOf stC 1) 1 = [2] := by decide

lemma stC_child2 : childIds (topicsOf stC 1) 2 = [1] := by decide

/-- On the two-cycle store the worklist never empties. -/
lemma stC_loop : ∀ fuel scope,
    scopeLoop (topicsOf stC 1) fuel scope [1] = none ∧
    scopeLoop (topicsOf stC 1) fuel scope [2] = none := by
  intro fuel
  induction fuel with
  | zero => intro scope; exact ⟨rfl, rfl⟩
  | succ n ih =>
      intro scope
      constructor
      · show scopeLoop (topicsOf stC 1) n
          (scope ++ childIds (topicsOf stC 1) 1)
          ((childIds (topicsOf stC 1) 1).reverse ++ []) = none
        rw [stC_child1]
        simpa using (ih (scope ++ [2])).2
      · show scopeLoop (topicsOf stC 1) n
          (scope ++ childIds (topicsOf stC 1) 2)
          ((childIds (topicsOf stC 1) 2).reverse ++ []) = none
        rw [stC_child2]
        simpa using (ih (scope ++ [1])).1

/-- C5 counterexample: on a finite topic set of the user whose parent
links form a cycle reachable from the root, `get_topic_scope` does not
terminate (the embedding returns `none` for every fuel), refuting the
claim that the traversal terminates on every finite topic set. -/
theorem c5_counterexample : ¬ ScopeTerminates stC 1 1 := by
  rintro ⟨fuel, res, hrun⟩
  have hnone := (stC_loop fuel [1]).1
  rw [getTopicScope] at hrun
  rw [hrun] at hnone
  cases hnone

/-- C5 amended: the Scope Resolver traversal terminates on every finite
acyclic set of the user's topics; when a cycle is reachable from the root
it loops forever. -/
theorem c5_scope_terminates_on_acyclic (st : St) (u root : Nat)
    (hacyc : Acyclic (topicsOf st u)) : ScopeTerminates st u root :=
  getTopicScope_total st u root hacyc

theorem c5_scope_terminates_on_acyclic_witness :
    Acyclic (topicsOf stW 1) ∧ ScopeTerminates stW 1 1 :=
  ⟨⟨fun x => x, by decide⟩,
    c5_scope_terminates_on_acyclic stW 1 1 ⟨fun x => x, by decide⟩⟩

/-! ### Claim C3: topic-filtered listing returns exactly the scope -/

/-- C3: for every card `c` owned by the requesting user and every topic
id `x`, `GET /api/cards?topic_id=x` returns `c` iff `c.topic_id` is an
element of the Scope Resolver's output for `x`. -/
theorem c3_listing_iff_scope (st : St) (u x : Nat) (c : Card)
    (hacyc : Acyclic (topicsOf st u)) (hc : c ∈ st.cards) (hu : c.user_id = u) :
    ∃ fuel res scope,
      getCards st u (some x) fuel = some res ∧
      getTopicScope st u x fuel = some scope ∧
      (c ∈ res ↔ ∃ p, c.topic_id = some p ∧ p ∈ scope) := by
  obtain ⟨fuel, scope, hrun⟩ := getTopicScope_total st u x hacyc
  refine ⟨fuel,
    (st.cards.filter (fun c => c.user_id == u)).filter
      (fun c => match c.topic_id with
        | some p => scope.contains p
        | none => false),
    scope, by simp [getCards, hrun], hrun, ?_⟩
  rcases htp : c.topic_id with _ | p
  · simp [List.mem_filter, htp, hc, hu]
  · simp [List.mem_filter, htp, hc, hu]

theorem c3_listing_iff_scope_witness :
    (Acyclic (topicsOf stW 1) ∧
      (⟨1, "g", "f1", "b1", 1, some 2⟩ : Card) ∈ stW.cards) ∧
    (∃ fuel res scope,
      getCards stW 1 (some 1) fuel = some res ∧
      getTopicScope stW 1 1 fuel = some scope ∧
      ((⟨1, "g", "f1", "b1", 1, some 2⟩ : Card) ∈ res ↔
        ∃ p, (⟨1, "g", "f1", "b1", 1, some 2⟩ : Card).topic_id = some p ∧ p ∈ scope)) :=
  ⟨⟨⟨fun x => x, by decide⟩, by decide⟩,
    c3_listing_iff_scope stW 1 1 ⟨1, "g", "f1", "b1", 1, some 2⟩
      ⟨fun x => x, by decide⟩ (by decide) rfl⟩

/-! ### Claim C10: listing never leaks another user's cards -/

/-- C10: for every value of the (already parsed) `topic_id` query
parameter — including the id of another user's topic and an id of no
topic at all — `GET /api/cards` on a store whose topics for the
requesting user are acyclic succeeds, and every returned card is owned
by the requesting user. -/
theorem c10_no_cross_user_cards (st : St) (u : Nat) (param : Option Nat)
    (hacyc : Acyclic (topicsOf st u)) :
    ∃ fuel res, getCards st u param fuel = some res ∧ ∀ c ∈ res, c.user_id = u := by
  have base_user : ∀ res1 : List Card,
      (∀ c ∈ res1, c ∈ st.cards.filter (fun c => c.user_id == u)) →
      ∀ c ∈ res1, c.user_id = u := by
    intro res1 hsub c hcm
    have h := List.mem_filter.mp (hsub c hcm)
    simpa using h.2
  match param with
  | some tid =>
      obtain ⟨fuel, scope, hrun⟩ := getTopicScope_total st u tid hacyc
      have hres : getCards st u (some tid) fuel =
          some ((st.cards.filter (fun c => c.user_id == u)).filter
            (fun c => match c.topic_id with
              | some p => scope.contains p
              | none => false)) := by
        simp only [getCards]
        rw [hrun]
        rfl
      refine ⟨fuel, _, hres, ?_⟩
      exact base_user _ (fun c hcm => (List.mem_filter.mp hcm).1)
  | none =>
      cases hdt : st.topics.find? (fun t => t.user_id == u && t.name == "My Flashcards") with
      | some dt =>
          obtain ⟨fuel, scope, hrun⟩ := getTopicScope_total st u dt.id hacyc
          have hres : getCards st u none fuel =
              some ((st.cards.filter (fun c => c.user_id == u)).filter
                (fun c => match c.topic_id with
                  | some p => scope.contains p
                  | none => true)) := by
            simp [getCards, hdt, hrun]
          refine ⟨fuel, _, hres, ?_⟩
          exact base_user _ (fun c hcm => (List.mem_filter.mp hcm).1)
      | none =>
          have hres : getCards st u none 0 =
              some ((st.cards.filter (fun c => c.user_id == u)).filter
                (fun c => c.topic_id == none)) := by
            simp [getCards, hdt]
          refine ⟨0, _, hres, ?_⟩
          exact base_user _ (fun c hcm => (List.mem_filter.mp hcm).1)

theorem c10_no_cross_user_cards_witness :
    Acyclic (topicsOf stW 1) ∧
    (∃ fuel res, getCards stW 1 (some 3) fuel = some res ∧
      ∀ c ∈ res, c.user_id = 1) :=
  ⟨⟨fun x => x, by decide⟩,
    c10_no_cross_user_cards stW 1 (some 3) ⟨fun x => x, by decide⟩⟩

/-! ### Further basic lemmas on rows and ids -/

lemma find?_by_id {ts : List Topic} {t : Topic} (hnd : (ts.map (·.id)).Nodup)
    (ht : t ∈ ts) : ts.find? (fun x => x.id == t.id) = some t := by
  induction ts with
  | nil => cases ht
  | cons a ts ih =>
      rw [List.map_cons, List.nodup_cons] at hnd
      rcases List.mem_cons.mp ht with rfl | hmem
      · exact List.find?_cons_of_pos ts (by simp)
      · have hne : ¬(a.id == t.id) = true := by
          simp only [beq_iff_eq]
          intro h
          exact hnd.1 (h ▸ List.mem_map_of_mem _ hmem)
        exact (List.find?_cons_of_neg ts hne).trans (ih hnd.2 hmem)

lemma id_lt_nextTopicId {st : St} {t : Topic} (ht : t ∈ st.topics) :
    t.id < nextTopicId st := by
  have h1 : t.id ≤ (st.topics.map (·.id)).foldr max 0 :=
    le_foldr_max (List.mem_map_of_mem (·.id) ht)
  unfold nextTopicId
  omega

lemma applyName_id (t : Topic) (n : Option String) : (applyName t n).id = t.id := by
  cases n <;> rfl

lemma applyOrder_id (t : Topic) (o : Option Int) : (applyOrder t o).id = t.id := by
  cases o <;> rfl

lemma applyName_parent (t : Topic) (n : Option String) :
    (applyName t n).parent_id = t.parent_id := by
  cases n <;> rfl

lemma applyOrder_parent (t : Topic) (o : Option Int) :
    (applyOrder t o).parent_id = t.parent_id := by
  cases o <;> rfl

/-! ### Claim C7: self-parent update is rejected without mutation -/

/-- C7: for every topic `t` owned by the requester, `PUT /api/topics/{id}`
with `parent_id` equal to the topic's own id answers 400 and leaves the
store unchanged — including its `name` and `order` fields — even when the
request also carries new name or order values. -/
theorem c7_self_parent_rejected (st : St) (u : Nat) (t : Topic) (data : TopicUpdate)
    (hnd : NodupIds st) (ht : t ∈ st.topics) (hu : t.user_id = u)
    (hp : data.parent_id = some (some t.id)) :
    update_topic st u t.id data = (400, st) := by
  have hfind : st.topics.find? (fun x => x.id == t.id) = some t := find?_by_id hnd ht
  simp [update_topic, hfind, hp, hu]

theorem c7_self_parent_rejected_witness :
    (NodupIds stW ∧ (⟨1, "My Flashcards", 1, none, 0⟩ : Topic) ∈ stW.topics) ∧
    update_topic stW 1 1 ⟨some "renamed", some 7, some (some 1)⟩ = (400, stW) :=
  ⟨⟨by decide, by decide⟩,
    c7_self_parent_rejected stW 1 ⟨1, "My Flashcards", 1, none, 0⟩
      ⟨some "renamed", some 7, some (some 1)⟩ (by decide) (by decide) rfl rfl⟩

/-! ### Claim C4: which mutations preserve the parent invariant -/

/-- C4 counterexample: starting from a state satisfying the combined
invariant (parents exist, belong to the same user, and no self-loops),
the topic update operation lets user 1 set user 2's topic as the parent
of their own topic: the request succeeds with 200 and the resulting state
violates the invariant. -/
theorem c4_counterexample :
    TopicInv stTwoUsers ∧
    (update_topic stTwoUsers 1 1 ⟨none, none, some (some 2)⟩).1 = 200 ∧
    ¬ TopicInv (update_topic stTwoUsers 1 1 ⟨none, none, some (some 2)⟩).2 :=
  ⟨by decide, by decide, by decide⟩

lemma noSelf_map_replace {st : St} {i : Nat} {newT : Topic}
    (h : NoSelfParent st) (hnew : newT.parent_id ≠ some newT.id) :
    NoSelfParent { st with
      topics := st.topics.map (fun t => if t.id == i then newT else t) } := by
  intro x hx
  rcases List.mem_map.mp hx with ⟨t, ht, rfl⟩
  by_cases hti : (t.id == i) = true
  · rw [if_pos hti]; exact hnew
  · rw [if_neg hti]; exact h t ht

lemma reorderApply_noSelf {u : Nat} {ts : List Topic} {item : ReorderItem}
    (h : ∀ t ∈ ts, t.parent_id ≠ some t.id) :
    ∀ t ∈ reorderApply u ts item, t.parent_id ≠ some t.id := by
  intro x hx
  rcases List.mem_map.mp hx with ⟨t, ht, rfl⟩
  by_cases hcond : (t.id == item.id && t.user_id == u) = true
  · rw [if_pos hcond]
    cases hpid : item.parent_id with
    | none => exact h t ht
    | some p =>
        by_cases hne : (p != some t.id) = true
        · dsimp only
          rw [if_pos hne]
          exact bne_iff_ne.mp hne
        · dsimp only
          rw [if_neg hne]
          exact h t ht
  · rw [if_neg hcond]
    exact h t ht

/-- C4 amended: topic creation preserves the full invariant (an existing
same-user parent and no self-loop) whenever the supplied parent id is not
the Python-falsy value 0; topic update and bulk reorder preserve only the
no-self-parent half of the invariant — they reject or skip a parent equal
to the topic's own id but perform no ownership or existence check on the
new parent, so they can attach a topic under another user's topic. -/
theorem c4_mutations_and_parent_invariant :
    (∀ st u data, TopicInv st → data.parent_id ≠ some 0 →
      TopicInv (create_topic st u data).2) ∧
    (∀ st u i data, NoSelfParent st → NoSelfParent (update_topic st u i data).2) ∧
    (∀ st u items, NoSelfParent st → NoSelfParent (reorder_topics st u items).2) := by
  refine ⟨?_, ?_, ?_⟩
  · -- create
    intro st u data hinv hp0
    have happend : ∀ t : Topic,
        (∀ p ∈ t.parent_id, ∃ t' ∈ st.topics, t'.id = p ∧ t'.user_id = t.user_id) →
        t.parent_id ≠ some t.id →
        TopicInv { st with topics := st.topics ++ [t] } := by
      intro t hpar hself
      constructor
      · intro x hx p hp
        rcases List.mem_append.mp hx with hx | hx
        · obtain ⟨t', ht', h1, h2⟩ := hinv.1 x hx p hp
          exact ⟨t', List.mem_append.mpr (Or.inl ht'), h1, h2⟩
        · rcases List.mem_singleton.mp hx with rfl
          obtain ⟨t', ht', h1, h2⟩ := hpar p hp
          exact ⟨t', List.mem_append.mpr (Or.inl ht'), h1, h2⟩
      · intro x hx
        rcases List.mem_append.mp hx with hx | hx
        · exact hinv.2 x hx
        · rcases List.mem_singleton.mp hx with rfl
          exact hself
    match hpid : data.parent_id with
    | none =>
        have hres : create_topic st u data =
            (200, { st with
              topics := st.topics ++ [⟨nextTopicId st, data.name, u, none, 999⟩] }) := by
          simp [create_topic, hpid]
        rw [hres]
        exact happend _ (by simp) (by simp)
    | some p =>
        have hpz : ¬(p == 0) = true := by
          simp only [beq_iff_eq]
          intro h; exact hp0 (by rw [hpid, h])
        cases hfind : st.topics.find? (fun t => t.id == p) with
        | none =>
            have hres : create_topic st u data = (400, st) := by
              simp [create_topic, hpid, hpz, hfind]
            rw [hres]; exact hinv
        | some parent =>
            by_cases huser : (parent.user_id == u) = true
            · have hres : create_topic st u data =
                  (200, { st with
                    topics := st.topics ++ [⟨nextTopicId st, data.name, u, some p, 999⟩] }) := by
                simp [create_topic, hpid, hpz, hfind, huser]
              rw [hres]
              have hparent_mem := List.mem_of_find?_eq_some hfind
              have hparent_id : parent.id = p := by
                have := List.find?_some hfind
                simpa using this
              apply happend
              · intro q hq
                have hqp : p = q := by simpa using hq
                subst hqp
                exact ⟨parent, hparent_mem, hparent_id, by simpa using huser⟩
              · have hlt := id_lt_nextTopicId hparent_mem
                rw [hparent_id] at hlt
                simp only [ne_eq, Option.some.injEq]
                omega
            · have hres : create_topic st u data = (400, st) := by
                simp [create_topic, hpid, hpz, hfind, huser]
              rw [hres]; exact hinv
  · -- update
    intro st u i data h
    unfold update_topic
    cases hfind : st.topics.find? (fun t => t.id == i) with
    | none => exact h
    | some topic =>
        have htop := List.mem_of_find?_eq_some hfind
        dsimp only
        by_cases huser : (topic.user_id != u) = true
        · rw [if_pos huser]; exact h
        · rw [if_neg huser]
          cases hpd : data.parent_id with
          | none =>
              dsimp only
              apply noSelf_map_replace h
              rw [applyOrder_parent, applyName_parent, applyOrder_id, applyName_id]
              exact h topic htop
          | some np =>
              dsimp only
              by_cases hself : (np == some topic.id) = true
              · rw [if_pos hself]; exact h
              · rw [if_neg hself]
                apply noSelf_map_replace h
                show np ≠ some ((applyOrder (applyName topic data.name) data.order).id)
                rw [applyOrder_id, applyName_id]
                simpa using hself
  · -- reorder
    intro st u items h
    show ∀ t ∈ items.foldl (reorderApply u) st.topics, t.parent_id ≠ some t.id
    have hfold : ∀ (items : List ReorderItem) (ts : List Topic),
        (∀ t ∈ ts, t.parent_id ≠ some t.id) →
        ∀ t ∈ items.foldl (reorderApply u) ts, t.parent_id ≠ some t.id := by
      intro items
      induction items with
      | nil => intro ts hts; exact hts
      | cons it rest ih =>
          intro ts hts
          exact ih _ (reorderApply_noSelf hts)
    exact hfold items st.topics h
/-! ### Claim C6: cross-user requests -/

/-- C6 counterexample: a bulk reorder request by user 1 acting on a topic
id owned by user 2 answers 200, not 403 or 404 (the entry is silently
skipped), refuting the claim that every cross-user mutation request
returns 403/404. -/
theorem c6_counterexample :
    reorder_topics stForeign 1 [⟨1, 5, none⟩] = (200, stForeign) ∧
    (200 : Nat) ≠ 403 ∧ (200 : Nat) ≠ 404 :=
  ⟨by decide, by decide, by decide⟩

lemma reorder_foreign_pointwise (u : Nat) :
    ∀ (items : List ReorderItem) (ts : List Topic) (j : Nat) (t : Topic),
      ts.get? j = some t → t.user_id ≠ u →
      (items.foldl (reorderApply u) ts).get? j = some t := by
  intro items
  induction items with
  | nil => intro ts j t hj _; exact hj
  | cons it rest ih =>
      intro ts j t hj hu
      apply ih _ _ _ _ hu
      have hcond : ¬(t.id == it.id && t.user_id == u) = true := by
        simp [hu]
      show ((ts.map _).get? j) = some t
      rw [List.get?_map, hj]
      simp only [Option.map_some']
      rw [if_neg hcond]

/-- C6 amended: card update and topic delete on an id owned by a
different user (resp. a missing id) answer 403 (resp. 404) and leave the
store unchanged; bulk reorder, however, always answers 200 — entries
naming a missing or foreign topic are skipped with those topics left
unchanged and no card touched, while entries owned by the requester are
still applied. -/
theorem c6_cross_user_requests :
    (∀ (st : St) (u i : Nat) (data : CardUpdate),
        st.cards.find? (fun c => c.id == i) = none →
        update_card st u i data = (404, st)) ∧
    (∀ (st : St) (u i : Nat) (data : CardUpdate) (c : Card),
        st.cards.find? (fun c => c.id == i) = some c → c.user_id ≠ u →
        update_card st u i data = (403, st)) ∧
    (∀ (st : St) (u i fuel : Nat),
        st.topics.find? (fun t => t.id == i) = none →
        delete_topic st u i fuel = some (404, st, [])) ∧
    (∀ (st : St) (u i fuel : Nat) (t : Topic),
        st.topics.find? (fun t => t.id == i) = some t → t.user_id ≠ u →
        delete_topic st u i fuel = some (403, st, [])) ∧
    (∀ (st : St) (u : Nat) (items : List ReorderItem),
        (reorder_topics st u items).1 = 200 ∧
        (reorder_topics st u items).2.cards = st.cards ∧
        ∀ j t, st.topics.get? j = some t → t.user_id ≠ u →
          (reorder_topics st u items).2.topics.get? j = some t) := by
  refine ⟨?_, ?_, ?_, ?_, ?_⟩
  · intro st u i data hfind
    unfold update_card
    rw [hfind]
  · intro st u i data c hfind hne
    unfold update_card
    rw [hfind]
    dsimp only
    rw [if_pos (bne_iff_ne.mpr hne)]
  · intro st u i fuel hfind
    unfold delete_topic
    rw [hfind]
  · intro st u i fuel t hfind hne
    unfold delete_topic
    rw [hfind]
    dsimp only
    rw [if_pos (bne_iff_ne.mpr hne)]
  · intro st u items
    exact ⟨rfl, rfl, fun j t hj hu => reorder_foreign_pointwise u items st.topics j t hj hu⟩

theorem c6_cross_user_requests_witness :
    (st0.cards.find? (fun c => c.id == 1) = none ∧
      update_card st0 1 1 ⟨none, none, none, none⟩ = (404, st0)) ∧
    ((stW.cards.find? (fun c => c.id == 2) = some ⟨2, "g", "f2", "b2", 2, some 3⟩ ∧
        (2 : Nat) ≠ 1) ∧
      update_card stW 1 2 ⟨some "x", none, none, none⟩ = (403, stW)) ∧
    (delete_topic st0 1 1 5 = some (404, st0, [])) ∧
    (delete_topic stW 1 3 5 = some (403, stW, [])) ∧
    ((reorder_topics stW 1 [⟨3, 9, none⟩]).1 = 200 ∧
      (reorder_topics stW 1 [⟨3, 9, none⟩]).2.cards = stW.cards ∧
      (reorder_topics stW 1 [⟨3, 9, none⟩]).2.topics.get? 2 =
        some ⟨3, "D", 2, none, 0⟩) :=
  ⟨⟨by decide, c6_cross_user_requests.1 st0 1 1 ⟨none, none, none, none⟩ (by decide)⟩,
    ⟨⟨by decide, by decide⟩,
      c6_cross_user_requests.2.1 stW 1 2 ⟨some "x", none, none, none⟩
        ⟨2, "g", "f2", "b2", 2, some 3⟩ (by decide) (by decide)⟩,
    c6_cross_user_requests.2.2.1 st0 1 1 5 (by decide),
    c6_cross_user_requests.2.2.2.1 stW 1 3 5 ⟨3, "D", 2, none, 0⟩ (by decide) (by decide),
    (c6_cross_user_requests.2.2.2.2 stW 1 [⟨3, 9, none⟩]).1,
    (c6_cross_user_requests.2.2.2.2 stW 1 [⟨3, 9, none⟩]).2.1,
    (c6_cross_user_requests.2.2.2.2 stW 1 [⟨3, 9, none⟩]).2.2 2 ⟨3, "D", 2, none, 0⟩
      (by decide) (by decide)⟩

/-! ### Claim C8: which text pair the import prefers -/

/-- C8 counterexample: an import item carrying all four keys `front`,
`back`, `prompt`, `completion` produces a card whose text pair comes from
`prompt`/`completion`, not from `front`/`back` as claimed. -/
theorem c8_counterexample :
    (import_cards st0 1 none
        [⟨some "cat", some "F", some "B", some "P", some "C", none⟩]).2.2.cards.map
        (fun c => (c.front, c.back)) = [("P", "C")] ∧
    [("P", "C")] ≠ [(("F" : String), ("B" : String))] :=
  ⟨by decide, by decide⟩

lemma resolveImportTopic_cards (u : Nat) (forced : Option Nat) (st : St)
    (it : ImportItem) : (resolveImportTopic u forced st it).1.cards = st.cards := by
  unfold resolveImportTopic
  rcases forced with _ | fid
  · cases htop : it.topic with
    | none => rfl
    | some tname =>
        dsimp only
        by_cases ht : (tname != "") = true
        · rw [if_pos ht]
          cases hfind : st.topics.find? (fun t => t.user_id == u && t.name == tname) with
          | some t => rfl
          | none => rfl
        · rw [if_neg ht]
  · rfl

/-- C8 amended: for an import item containing all four keys, the created
card takes its text pair from `prompt` and `completion`: that alternative
is preferred over `front`/`back`. -/
theorem c8_import_prefers_prompt (st : St) (u : Nat) (it : ImportItem)
    (p c f b : String)
    (hp : it.prompt = some p) (hc : it.completion = some c)
    (hf : it.front = some f) (hb : it.back = some b)
    (hpn : p ≠ "") (hcn : c ≠ "") :
    ∃ st' newCard, import_cards st u none [it] = (201, 1, st') ∧
      st'.cards = st.cards ++ [newCard] ∧
      newCard.front = p ∧ newCard.back = c := by
  have hpick : pickPair it = some (p, c) := by
    unfold pickPair
    rw [hp, hc]
    simp
  have hcond : (p != "" && c != "") = true := by
    rw [Bool.and_eq_true]
    exact ⟨bne_iff_ne.mpr hpn, bne_iff_ne.mpr hcn⟩
  obtain ⟨st1, tid, hres⟩ : ∃ st1 tid, resolveImportTopic u none st it = (st1, tid) :=
    ⟨_, _, rfl⟩
  have hcards1 : st1.cards = st.cards := by
    rw [show st1 = (resolveImportTopic u none st it).1 from by rw [hres]]
    exact resolveImportTopic_cards u none st it
  have hstep : importItemStep u none st it =
      ({ st1 with
        cards := st.cards ++ [⟨nextCardId st1, it.category.getD "Imported", p, c, u, tid⟩] }, 1) := by
    unfold importItemStep
    rw [hpick]
    dsimp only
    rw [if_pos hcond, hres]
    dsimp only
    rw [hcards1]
  refine ⟨{ st1 with
      cards := st.cards ++ [⟨nextCardId st1, it.category.getD "Imported", p, c, u, tid⟩] },
    ⟨nextCardId st1, it.category.getD "Imported", p, c, u, tid⟩, ?_, rfl, rfl, rfl⟩
  simp only [import_cards, importLoop, hstep, Nat.zero_add]

theorem c8_import_prefers_prompt_witness :
    ∃ st' newCard,
      import_cards st0 1 none
        [⟨some "cat", some "F", some "B", some "P", some "C", none⟩] = (201, 1, st') ∧
      st'.cards = st0.cards ++ [newCard] ∧
      newCard.front = "P" ∧ newCard.back = "C" :=
  c8_import_prefers_prompt st0 1 ⟨some "cat", some "F", some "B", some "P", some "C", none⟩
    "P" "C" "F" "B" rfl rfl rfl rfl (by decide) (by decide)

/-! ### Claim C9: export then import round trip -/

/-- C9 counterexample: a user state holding one card with an empty front
text round-trips to zero cards — `import_cards` skips items whose text
values are Python-falsy — so the re-imported triple multiset differs from
the original. -/
theorem c9_counterexample :
    import_cards stEmptyFront 1 none
        ((export_cards stEmptyFront 1).map toImportItem) = (201, 0, stEmptyFront) ∧
    (cardsOf stEmptyFront 1).map cardTriple = [("General", "", "A")] ∧
    ([] : List (String × String × String)) ≠ [("General", "", "A")] :=
  ⟨by decide, by decide, by decide⟩

lemma importItemStep_good (u : Nat) (st : St) (it : ImportItem)
    (f b : String) (hf : it.front = some f) (hb : it.back = some b)
    (hfne : f ≠ "") (hbne : b ≠ "")
    (hpr : it.prompt = none)
    (htop : ∀ n, it.topic = some n → n ≠ "" ∧
      ∃ t ∈ st.topics, (t.user_id == u && t.name == n) = true) :
    ∃ tid, importItemStep u none st it =
      ({ st with cards := st.cards ++
          [⟨nextCardId st, it.category.getD "Imported", f, b, u, tid⟩] }, 1) ∧
      (match it.topic with
        | some n => ∃ t ∈ st.topics, t.user_id = u ∧ t.name = n ∧ tid = some t.id
        | none => tid =
            (st.topics.find? (fun t => t.user_id == u && t.name == "My Flashcards")).map
              (·.id)) := by
  have hpick : pickPair it = some (f, b) := by
    unfold pickPair
    rw [hpr, hf, hb]
    simp
  have hcond : (f != "" && b != "") = true := by
    rw [Bool.and_eq_true]
    exact ⟨bne_iff_ne.mpr hfne, bne_iff_ne.mpr hbne⟩
  cases htc : it.topic with
  | none =>
      refine ⟨(st.topics.find? (fun t => t.user_id == u && t.name == "My Flashcards")).map
          (·.id), ?_, rfl⟩
      have hres : resolveImportTopic u none st it =
          (st, (st.topics.find? (fun t => t.user_id == u && t.name == "My Flashcards")).map
            (·.id)) := by
        unfold resolveImportTopic
        rw [htc]
      unfold importItemStep
      rw [hpick]
      dsimp only
      rw [if_pos hcond, hres]
  | some n =>
      obtain ⟨hne, t0, ht0mem, ht0pred⟩ := htop n htc
      have hsome : (st.topics.find? (fun t => t.user_id == u && t.name == n)).isSome = true :=
        List.find?_isSome.mpr ⟨t0, ht0mem, ht0pred⟩
      obtain ⟨t1, hfind⟩ := Option.isSome_iff_exists.mp hsome
      have ht1mem := List.mem_of_find?_eq_some hfind
      have ht1pred := List.find?_some hfind
      rw [Bool.and_eq_true, beq_iff_eq, beq_iff_eq] at ht1pred
      refine ⟨some t1.id, ?_, ⟨t1, ht1mem, ht1pred.1, ht1pred.2, rfl⟩⟩
      have hres : resolveImportTopic u none st it = (st, some t1.id) := by
        unfold resolveImportTopic
        rw [htc]
        dsimp only
        rw [if_pos (bne_iff_ne.mpr hne), hfind]
      unfold importItemStep
      rw [hpick]
      dsimp only
      rw [if_pos hcond, hres]

lemma importLoop_good (u : Nat) (topics : List Topic) :
    ∀ (items : List ImportItem) (st : St) (count : Nat),
      st.topics = topics →
      (∀ it ∈ items,
        (∃ f b, it.front = some f ∧ it.back = some b ∧ f ≠ "" ∧ b ≠ "") ∧
        it.prompt = none ∧
        (∀ n, it.topic = some n → n ≠ "" ∧
          ∃ t ∈ topics, (t.user_id == u && t.name == n) = true)) →
      ∃ newCards,
        importLoop u none st count items =
          (count + items.length, { st with cards := st.cards ++ newCards }) ∧
        newCards.map cardTriple =
          items.map (fun it => (it.category.getD "Imported", it.front.getD "", it.back.getD "")) ∧
        List.Forall₂ (fun (it : ImportItem) (c : Card) =>
            match it.topic with
            | some n => ∃ t ∈ topics, t.user_id = u ∧ t.name = n ∧ c.topic_id = some t.id
            | none => c.topic_id =
                (topics.find? (fun t => t.user_id == u && t.name == "My Flashcards")).map
                  (·.id))
          items newCards := by
  intro items
  induction items with
  | nil =>
      intro st count hst hgood
      refine ⟨[], by simp [importLoop], rfl, List.Forall₂.nil⟩
  | cons it rest ih =>
      intro st count hst hgood
      subst hst
      obtain ⟨⟨f, b, hf, hb, hfne, hbne⟩, hpr, htop⟩ := hgood it (List.mem_cons_self _ _)
      obtain ⟨tid, hstep, hplace⟩ := importItemStep_good u st it f b hf hb hfne hbne hpr htop
      set newc : Card := ⟨nextCardId st, it.category.getD "Imported", f, b, u, tid⟩
        with hnewc
      set st' : St := { st with cards := st.cards ++ [newc] } with hst'
      obtain ⟨newRest, hloop, htr, hfa⟩ :=
        ih st' (count + 1) rfl (fun it' hit' => hgood it' (List.mem_cons_of_mem _ hit'))
      refine ⟨newc :: newRest, ?_, ?_, ?_⟩
      · calc importLoop u none st count (it :: rest)
            = importLoop u none st' (count + 1) rest := by
              simp only [importLoop]
              rw [hstep]
          _ = (count + 1 + rest.length, { st' with cards := st'.cards ++ newRest }) := hloop
          _ = (count + (it :: rest).length,
                { st with cards := st.cards ++ (newc :: newRest) }) := by
              have h1 : count + 1 + rest.length = count + (it :: rest).length := by
                simp only [List.length_cons]
                omega
              have h2 : st'.cards ++ newRest = st.cards ++ (newc :: newRest) := by
                show (st.cards ++ [newc]) ++ newRest = st.cards ++ (newc :: newRest)
                rw [List.append_assoc]
                rfl
              rw [h1, h2]
      · rw [List.map_cons, List.map_cons, htr]
        have : cardTriple newc = (it.category.getD "Imported", it.front.getD "", it.back.getD "") := by
          simp [cardTriple, hnewc, hf, hb]
        rw [this]
      · exact List.Forall₂.cons hplace hfa

/-- C9 amended: for every user state whose cards all carry nonempty front
and back texts and whose cards' topics (when resolvable) belong to the
user and have nonempty names, exporting and re-importing reproduces the
multiset of `{category, front, back}` triples (in order), leaves the
topic table unchanged, and places each re-imported card into a topic
whose name matches the exported topic name, cards exported without a
topic name falling back to the default topic per the import rules. -/
theorem c9_export_import_roundtrip (st : St) (u : Nat)
    (hfb : ∀ c ∈ st.cards, c.user_id = u → c.front ≠ "" ∧ c.back ≠ "")
    (htopics : ∀ c ∈ st.cards, c.user_id = u → ∀ tid ∈ c.topic_id,
      ∀ t ∈ st.topics, t.id = tid → t.user_id = u ∧ t.name ≠ "") :
    ∃ newCards,
      import_cards st u none ((export_cards st u).map toImportItem) =
        (201, (cardsOf st u).length, { st with cards := st.cards ++ newCards }) ∧
      newCards.map cardTriple = (cardsOf st u).map cardTriple ∧
      List.Forall₂ (fun (e : ExportItem) (c : Card) =>
          match e.topic with
          | some n => ∃ t ∈ st.topics, t.user_id = u ∧ t.name = n ∧ c.topic_id = some t.id
          | none => c.topic_id = defaultTopicId st u)
        (export_cards st u) newCards := by
  have hgood : ∀ it ∈ (export_cards st u).map toImportItem,
      (∃ f b, it.front = some f ∧ it.back = some b ∧ f ≠ "" ∧ b ≠ "") ∧
      it.prompt = none ∧
      (∀ n, it.topic = some n → n ≠ "" ∧
        ∃ t ∈ st.topics, (t.user_id == u && t.name == n) = true) := by
    intro it hit
    rcases List.mem_map.mp hit with ⟨e, he, rfl⟩
    rcases List.mem_map.mp he with ⟨c, hc, rfl⟩
    have hcmem := List.mem_filter.mp hc
    have hcu : c.user_id = u := by simpa using hcmem.2
    obtain ⟨hfne, hbne⟩ := hfb c hcmem.1 hcu
    refine ⟨⟨c.front, c.back, rfl, rfl, hfne, hbne⟩, rfl, ?_⟩
    intro n hn
    have hn' : (c.topic_id.bind
        (fun tid => st.topics.find? (fun t => t.id == tid))).map (·.name) = some n := hn
    rcases Option.map_eq_some'.mp hn' with ⟨t0, hbind, ht0name⟩
    rcases Option.bind_eq_some.mp hbind with ⟨tid, hctid, hfind⟩
    have ht0mem := List.mem_of_find?_eq_some hfind
    have ht0id : t0.id = tid := by
      have := List.find?_some hfind
      simpa using this
    obtain ⟨hu0, hname0⟩ := htopics c hcmem.1 hcu tid (by simp [hctid]) t0 ht0mem ht0id
    refine ⟨by rw [← ht0name]; exact hname0, t0, ht0mem, ?_⟩
    rw [Bool.and_eq_true, beq_iff_eq, beq_iff_eq]
    exact ⟨hu0, ht0name⟩
  obtain ⟨newCards, hloop, htr, hfa⟩ :=
    importLoop_good u st.topics ((export_cards st u).map toImportItem) st 0 rfl hgood
  refine ⟨newCards, ?_, ?_, ?_⟩
  · unfold import_cards
    rw [hloop]
    simp only [export_cards, cardsOf, List.length_map, Nat.zero_add]
  · rw [htr]
    show ((export_cards st u).map toImportItem).map _ = _
    unfold export_cards
    rw [List.map_map, List.map_map]
    rfl
  · rw [List.forall₂_map_left_iff] at hfa
    exact hfa

theorem c9_export_import_roundtrip_witness :
    ((∀ c ∈ stW.cards, c.user_id = 1 → c.front ≠ "" ∧ c.back ≠ "") ∧
      (∀ c ∈ stW.cards, c.user_id = 1 → ∀ tid ∈ c.topic_id,
        ∀ t ∈ stW.topics, t.id = tid → t.user_id = 1 ∧ t.name ≠ "")) ∧
    (∃ newCards,
      import_cards stW 1 none ((export_cards stW 1).map toImportItem) =
        (201, (cardsOf stW 1).length, { stW with cards := stW.cards ++ newCards }) ∧
      newCards.map cardTriple = (cardsOf stW 1).map cardTriple ∧
      List.Forall₂ (fun (e : ExportItem) (c : Card) =>
          match e.topic with
          | some n => ∃ t ∈ stW.topics, t.user_id = 1 ∧ t.name = n ∧ c.topic_id = some t.id
          | none => c.topic_id = defaultTopicId stW 1)
        (export_cards stW 1) newCards) :=
  ⟨⟨by decide, by decide⟩,
    c9_export_import_roundtrip stW 1 (by decide) (by decide)⟩

theorem c4_mutations_and_parent_invariant_witness :
    (TopicInv stW ∧ (some 1 : Option Nat) ≠ some 0 ∧
      TopicInv (create_topic stW 1 ⟨"N", some 1⟩).2) ∧
    (NoSelfParent stW ∧
      NoSelfParent (update_topic stW 1 1 ⟨none, none, some (some 3)⟩).2) ∧
    NoSelfParent (reorder_topics stW 1 [⟨1, 5, some (some 2)⟩]).2 :=
  ⟨⟨by decide, by decide,
      c4_mutations_and_parent_invariant.1 stW 1 ⟨"N", some 1⟩ (by decide) (by decide)⟩,
    ⟨by decide,
      c4_mutations_and_parent_invariant.2.1 stW 1 1 ⟨none, none, some (some 3)⟩ (by decide)⟩,
    c4_mutations_and_parent_invariant.2.2 stW 1 [⟨1, 5, some (some 2)⟩] (by decide)⟩

/-! ### Forest lemmas for the recursive delete (claim C2) -/

lemma row_unique {ts : List Topic} (hnd : (ts.map (·.id)).Nodup)
    {t t' : Topic} (ht : t ∈ ts) (ht' : t' ∈ ts) (h : t.id = t'.id) : t = t' := by
  induction ts with
  | nil => cases ht
  | cons a l ih =>
      rw [List.map_cons, List.nodup_cons] at hnd
      rcases List.mem_cons.mp ht with rfl | hm
      · rcases List.mem_cons.mp ht' with rfl | hm'
        · rfl
        · exact absurd (h ▸ List.mem_map_of_mem (·.id) hm') hnd.1
      · rcases List.mem_cons.mp ht' with rfl | hm'
        · exact absurd (h ▸ List.mem_map_of_mem (·.id) hm) hnd.1
        · exact ih hnd.2 hm hm'

lemma childStep_into_row {ts : List Topic} (hnd : (ts.map (·.id)).Nodup)
    {y : Nat} {t : Topic} (ht : t ∈ ts) (h : ChildStep ts y t.id) :
    t.parent_id = some y := by
  rcases mem_childIds.mp h with ⟨t', ht', hp', hid'⟩
  rw [← row_unique hnd ht' ht hid']
  exact hp'

lemma transGen_rank_lt {ts : List Topic} {rank : Nat → Nat}
    (hrank : RankCert ts rank) {a b : Nat}
    (h : Relation.TransGen (ChildStep ts) a b) : rank a < rank b := by
  induction h with
  | single h => exact rank_lt_of_childStep hrank h
  | tail _ hstep ih => exact lt_trans ih (rank_lt_of_childStep hrank hstep)

lemma reach_total_of_common {ts : List Topic} (hnd : (ts.map (·.id)).Nodup)
    {c1 c2 x : Nat} (h1 : Reach ts c1 x) (h2 : Reach ts c2 x) :
    Reach ts c1 c2 ∨ Reach ts c2 c1 := by
  induction h1 with
  | refl => exact Or.inr h2
  | tail hpre hstep ih =>
      rcases Relation.ReflTransGen.cases_tail h2 with heq | ⟨y', h2', hstep'⟩
      · subst heq
        exact Or.inl (Relation.ReflTransGen.tail hpre hstep)
      · rcases mem_childIds.mp hstep with ⟨t, htm, htp, htid⟩
        have e1 := childStep_into_row hnd htm (htid ▸ hstep)
        have e2 := childStep_into_row hnd htm (htid ▸ hstep')
        rw [e1] at e2
        have hyy := Option.some_injective _ e2
        exact ih (by rw [hyy]; exact h2')

lemma closures_disjoint {ts : List Topic} (hnd : (ts.map (·.id)).Nodup)
    {c1 c2 : Nat} (h12 : ¬ Reach ts c1 c2) (h21 : ¬ Reach ts c2 c1)
    {x : Nat} (hx1 : Reach ts c1 x) (hx2 : Reach ts c2 x) : False :=
  (reach_total_of_common hnd hx1 hx2).elim h12 h21

lemma childStep_mono {ts ts' : List Topic} (hsub : ∀ t ∈ ts', t ∈ ts)
    {a b : Nat} (h : ChildStep ts' a b) : ChildStep ts a b := by
  rcases mem_childIds.mp h with ⟨t, htm, htp, htid⟩
  exact mem_childIds.mpr ⟨t, hsub t htm, htp, htid⟩

lemma reach_mono {ts ts' : List Topic} (hsub : ∀ t ∈ ts', t ∈ ts)
    {a b : Nat} (h : Reach ts' a b) : Reach ts a b := by
  induction h with
  | refl => exact Relation.ReflTransGen.refl
  | tail _ hstep ih => exact Relation.ReflTransGen.tail ih (childStep_mono hsub hstep)

lemma transGen_mono {ts ts' : List Topic} (hsub : ∀ t ∈ ts', t ∈ ts)
    {a b : Nat} (h : Relation.TransGen (ChildStep ts') a b) :
    Relation.TransGen (ChildStep ts) a b := by
  induction h with
  | single h => exact Relation.TransGen.single (childStep_mono hsub h)
  | tail _ hstep ih => exact Relation.TransGen.tail ih (childStep_mono hsub hstep)

/-- A reachability path stays valid in a smaller store as long as the
whole closure of the base survives. -/
lemma reach_restrict_closure {ts ts' : List Topic} {root : Nat}
    (hkeep : ∀ t ∈ ts, Reach ts root t.id → t ∈ ts') :
    ∀ {a b : Nat}, Reach ts root a → Reach ts a b → Reach ts' a b := by
  intro a b hroot h
  induction h with
  | refl => exact Relation.ReflTransGen.refl
  | tail hpre hstep ih =>
      rcases mem_childIds.mp hstep with ⟨t, htm, htp, htid⟩
      have hreach : Reach ts root t.id := by
        refine Relation.ReflTransGen.trans hroot ?_
        exact htid ▸ Relation.ReflTransGen.tail hpre hstep
      have hstep' : ChildStep ts' _ t.id :=
        mem_childIds.mpr ⟨t, hkeep t htm hreach, htp, rfl⟩
      exact Relation.ReflTransGen.tail ih (htid ▸ hstep')

lemma transGen_restrict_closure {ts ts' : List Topic} {root : Nat}
    (hkeep : ∀ t ∈ ts, Reach ts root t.id → t ∈ ts')
    {a b : Nat} (hroot : Reach ts root a)
    (h : Relation.TransGen (ChildStep ts) a b) :
    Relation.TransGen (ChildStep ts') a b := by
  rcases Relation.TransGen.head'_iff.mp h with ⟨z, hstep, hrest⟩
  rcases mem_childIds.mp hstep with ⟨t, htm, htp, htid⟩
  have hz : Reach ts root z :=
    Relation.ReflTransGen.tail hroot hstep
  have hstep' : ChildStep ts' a z := by
    refine mem_childIds.mpr ⟨t, hkeep t htm ?_, htp, htid⟩
    exact htid ▸ hz
  exact Relation.TransGen.head' hstep' (reach_restrict_closure hkeep hz hrest)

lemma sibling_not_reach {ts : List Topic} {rank : Nat → Nat}
    (hrank : RankCert ts rank) (hnd : (ts.map (·.id)).Nodup)
    {tid : Nat} {c1 c2 : Topic}
    (h1 : c1 ∈ ts) (hp1 : c1.parent_id = some tid)
    (h2 : c2 ∈ ts) (hp2 : c2.parent_id = some tid)
    (hne : c1.id ≠ c2.id) : ¬ Reach ts c1.id c2.id := by
  intro hr
  rcases Relation.ReflTransGen.cases_tail hr with heq | ⟨y, hpre, hstep⟩
  · exact hne heq.symm
  · have hyp := childStep_into_row hnd h2 hstep
    rw [hp2] at hyp
    have hy : tid = y := Option.some_injective _ hyp
    subst hy
    have hle : rank c1.id ≤ rank tid := rank_le_of_reach hrank hpre
    have hlt : rank tid < rank c1.id := hrank c1 h1 tid (by simp [hp1])
    omega

lemma nodup_map_pairwise_ne {ts : List Topic} (hnd : (ts.map (·.id)).Nodup) :
    ts.Pairwise (fun a b => a.id ≠ b.id) := by
  induction ts with
  | nil => exact List.Pairwise.nil
  | cons a l ih =>
      rw [List.map_cons, List.nodup_cons] at hnd
      refine List.Pairwise.cons ?_ (ih hnd.2)
      intro b hb h
      exact hnd.1 (h ▸ List.mem_map_of_mem (·.id) hb)

lemma children_pairwise {ts : List Topic} {rank : Nat → Nat}
    (hrank : RankCert ts rank) (hnd : (ts.map (·.id)).Nodup) (tid : Nat) :
    (ts.filter (fun c => c.parent_id == some tid)).Pairwise
      (fun c1 c2 => ¬ Reach ts c1.id c2.id ∧ ¬ Reach ts c2.id c1.id) := by
  have hpne : (ts.filter (fun c => c.parent_id == some tid)).Pairwise
      (fun a b => a.id ≠ b.id) :=
    (nodup_map_pairwise_ne hnd).sublist (List.filter_sublist ts)
  refine hpne.imp_of_mem ?_
  intro c1 c2 h1 h2 hne
  have h1' := List.mem_filter.mp h1
  have h2' := List.mem_filter.mp h2
  have hp1 : c1.parent_id = some tid := by simpa using h1'.2
  have hp2 : c2.parent_id = some tid := by simpa using h2'.2
  exact ⟨sibling_not_reach hrank hnd h1'.1 hp1 h2'.1 hp2 hne,
    sibling_not_reach hrank hnd h2'.1 hp2 h1'.1 hp1 (Ne.symm hne)⟩

/-- First-step decomposition of reachability from a topic id. -/
lemma reach_head_decomp {ts : List Topic} {tid : Nat} (y : Nat) :
    Reach ts tid y ↔
      y = tid ∨ ∃ c ∈ ts.filter (fun c => c.parent_id == some tid), Reach ts c.id y := by
  constructor
  · intro h
    rcases Relation.ReflTransGen.cases_head h with heq | ⟨z, hstep, hrest⟩
    · exact Or.inl heq.symm
    · rcases mem_childIds.mp hstep with ⟨t, htm, htp, htid⟩
      refine Or.inr ⟨t, List.mem_filter.mpr ⟨htm, by simp [htp]⟩, htid ▸ hrest⟩
  · rintro (rfl | ⟨c, hc, hreach⟩)
    · exact Relation.ReflTransGen.refl
    · have hc' := List.mem_filter.mp hc
      have hstep : ChildStep ts tid c.id :=
        mem_childIds.mpr ⟨c, hc'.1, by simpa using hc'.2, rfl⟩
      exact Relation.ReflTransGen.head hstep hreach

/-! ### Structural facts and termination of the recursive delete -/

lemma deleteRecList_sublist {rec : St → Topic → Option (St × List Nat)}
    (hrec : ∀ st t st1 ord, rec st t = some (st1, ord) → List.Sublist st1.topics st.topics) :
    ∀ cs st st2 ord, deleteRecList rec cs st = some (st2, ord) →
      List.Sublist st2.topics st.topics := by
  intro cs
  induction cs with
  | nil =>
      intro st st2 ord h
      rw [deleteRecList] at h
      obtain ⟨rfl, rfl⟩ : st = st2 ∧ [] = ord := by
        have := Option.some_injective _ h
        exact ⟨congrArg Prod.fst this, congrArg Prod.snd this⟩
      exact List.Sublist.refl _
  | cons c cs ih =>
      intro st st2 ord h
      rw [deleteRecList] at h
      cases hr : rec st c with
      | none => rw [hr] at h; simp at h
      | some pr =>
          obtain ⟨st1, o1⟩ := pr
          rw [hr] at h
          dsimp only at h
          cases hrest : deleteRecList rec cs st1 with
          | none => rw [hrest] at h; simp at h
          | some pr2 =>
              obtain ⟨stB, o2⟩ := pr2
              rw [hrest] at h
              obtain ⟨rfl, rfl⟩ : stB = st2 ∧ o1 ++ o2 = ord := by
                have := Option.some_injective _ h
                exact ⟨congrArg Prod.fst this, congrArg Prod.snd this⟩
              exact (ih st1 stB o2 hrest).trans (hrec st c st1 o1 hr)

lemma deleteRec_sublist :
    ∀ fuel st t st1 ord, deleteRec fuel st t = some (st1, ord) →
      List.Sublist st1.topics st.topics := by
  intro fuel
  induction fuel with
  | zero => intro st t st1 ord h; cases h
  | succ fuel ih =>
      intro st t st1 ord h
      rw [deleteRec] at h
      cases hlist : deleteRecList (deleteRec fuel)
          (st.topics.filter (fun c => c.parent_id == some t.id)) st with
      | none => rw [hlist] at h; simp at h
      | some pr =>
          obtain ⟨stL, ordL⟩ := pr
          rw [hlist] at h
          have hst1 : ({ topics := stL.topics.filter (fun x => x.id != t.id),
                         cards := stL.cards.filter (fun c => c.topic_id != some t.id) } : St) =
              st1 :=
            congrArg Prod.fst (Option.some_injective _ h)
          rw [← hst1]
          exact (List.filter_sublist _).trans (deleteRecList_sublist ih _ _ _ _ hlist)

lemma deleteRecList_total (rec : St → Topic → Option (St × List Nat))
    (I : St → Prop) (good : Topic → Prop)
    (hrec : ∀ st t, I st → good t → ∃ out, rec st t = some out)
    (hpres : ∀ st t out, I st → rec st t = some out → I out.1) :
    ∀ cs st, I st → (∀ c ∈ cs, good c) →
      ∃ out, deleteRecList rec cs st = some out := by
  intro cs
  induction cs with
  | nil => intro st _ _; exact ⟨(st, []), by rw [deleteRecList]⟩
  | cons c cs ih =>
      intro st hI hgood
      obtain ⟨⟨st1, o1⟩, hr⟩ := hrec st c hI (hgood c (List.mem_cons_self _ _))
      obtain ⟨⟨st2, o2⟩, hrest⟩ :=
        ih st1 (hpres st c (st1, o1) hI hr) (fun c' hc' => hgood c' (List.mem_cons_of_mem _ hc'))
      refine ⟨(st2, o1 ++ o2), ?_⟩
      rw [deleteRecList, hr]
      dsimp only
      rw [hrest]

lemma deleteRec_total (rank : Nat → Nat) (B : Nat) :
    ∀ fuel st t,
      RankCert st.topics rank → (∀ t' ∈ st.topics, rank t'.id ≤ B) →
      rank t.id ≤ B → B < fuel + rank t.id →
      ∃ out, deleteRec fuel st t = some out := by
  intro fuel
  induction fuel with
  | zero => intro st t _ _ hle hlt; omega
  | succ fuel ih =>
      intro st t hrk hB hle hlt
      have hgood : ∀ c ∈ st.topics.filter (fun c => c.parent_id == some t.id),
          rank c.id ≤ B ∧ B < fuel + rank c.id := by
        intro c hc
        have hc' := List.mem_filter.mp hc
        have hcp : c.parent_id = some t.id := by simpa using hc'.2
        have hstep : rank t.id < rank c.id := hrk c hc'.1 t.id (by simp [hcp])
        exact ⟨hB c hc'.1, by omega⟩
      obtain ⟨⟨stL, ordL⟩, hout⟩ :=
        deleteRecList_total (deleteRec fuel)
          (fun st' => RankCert st'.topics rank ∧ ∀ t' ∈ st'.topics, rank t'.id ≤ B)
          (fun c => rank c.id ≤ B ∧ B < fuel + rank c.id)
          (fun st' c hI hg => ih st' c hI.1 hI.2 hg.1 hg.2)
          (fun st' c out hI hr =>
            ⟨rankCert_subset (List.Sublist.subset (deleteRec_sublist fuel st' c out.1 out.2 hr)) hI.1,
              fun t' ht' =>
                hI.2 t' (List.Sublist.subset (deleteRec_sublist fuel st' c out.1 out.2 hr) ht')⟩)
          (st.topics.filter (fun c => c.parent_id == some t.id)) st ⟨hrk, hB⟩ hgood
      refine ⟨({ topics := stL.topics.filter (fun x => x.id != t.id),
                 cards := stL.cards.filter (fun c => c.topic_id != some t.id) }, ordL ++ [t.id]), ?_⟩
      rw [deleteRec, hout]

/-! ### Correctness of the recursive delete -/

lemma deleteRecList_correct (rank : Nat → Nat) (rec : St → Topic → Option (St × List Nat))
    (hrec : ∀ (st : St) (t : Topic),
      RankCert st.topics rank → (st.topics.map (·.id)).Nodup → t ∈ st.topics →
      ∀ st1 ord, rec st t = some (st1, ord) →
        List.Sublist st1.topics st.topics ∧
        (∀ x : Topic, x ∈ st1.topics ↔ x ∈ st.topics ∧ ¬ Reach st.topics t.id x.id) ∧
        (∀ cd : Card, cd ∈ st1.cards ↔ cd ∈ st.cards ∧
          ¬∃ p, cd.topic_id = some p ∧ Reach st.topics t.id p) ∧
        (∀ y, y ∈ ord ↔ Reach st.topics t.id y) ∧
        ord.Pairwise (fun a b => ¬ Relation.TransGen (ChildStep st.topics) a b)) :
    ∀ (cs : List Topic) (st : St),
      RankCert st.topics rank → (st.topics.map (·.id)).Nodup →
      (∀ c ∈ cs, c ∈ st.topics) →
      cs.Pairwise (fun c1 c2 => ¬ Reach st.topics c1.id c2.id ∧ ¬ Reach st.topics c2.id c1.id) →
      ∀ st2 ord, deleteRecList rec cs st = some (st2, ord) →
        List.Sublist st2.topics st.topics ∧
        (∀ x : Topic, x ∈ st2.topics ↔ x ∈ st.topics ∧ ∀ c ∈ cs, ¬ Reach st.topics c.id x.id) ∧
        (∀ cd : Card, cd ∈ st2.cards ↔ cd ∈ st.cards ∧
          ∀ c ∈ cs, ¬∃ p, cd.topic_id = some p ∧ Reach st.topics c.id p) ∧
        (∀ y, y ∈ ord ↔ ∃ c ∈ cs, Reach st.topics c.id y) ∧
        ord.Pairwise (fun a b => ¬ Relation.TransGen (ChildStep st.topics) a b) := by
  intro cs
  induction cs with
  | nil =>
      intro st hrk hnd hcs hpair st2 ord h
      rw [deleteRecList] at h
      obtain ⟨rfl, rfl⟩ : st = st2 ∧ [] = ord := by
        have := Option.some_injective _ h
        exact ⟨congrArg Prod.fst this, congrArg Prod.snd this⟩
      refine ⟨List.Sublist.refl _, ?_, ?_, ?_, List.Pairwise.nil⟩
      · intro x; simp
      · intro cd; simp
      · intro y; simp
  | cons c cs ih =>
      intro st hrk hnd hcs hpair st2 ord h
      rw [deleteRecList] at h
      cases hr : rec st c with
      | none => rw [hr] at h; simp at h
      | some pr =>
          obtain ⟨stA, ordA⟩ := pr
          rw [hr] at h
          dsimp only at h
          cases hrest : deleteRecList rec cs stA with
          | none => rw [hrest] at h; simp at h
          | some pr2 =>
              obtain ⟨stB, ordB⟩ := pr2
              rw [hrest] at h
              obtain ⟨rfl, rfl⟩ : stB = st2 ∧ ordA ++ ordB = ord := by
                have := Option.some_injective _ h
                exact ⟨congrArg Prod.fst this, congrArg Prod.snd this⟩
              obtain ⟨subA, topA, cardA, ordmemA, pwA⟩ :=
                hrec st c hrk hnd (hcs c (List.mem_cons_self _ _)) stA ordA hr
              have hsubsetA : ∀ t ∈ stA.topics, t ∈ st.topics := fun t ht => subA.subset ht
              have hrkA : RankCert stA.topics rank := rankCert_subset hsubsetA hrk
              have hndA : (stA.topics.map (·.id)).Nodup :=
                List.Nodup.sublist (subA.map (·.id)) hnd
              have hhead : ∀ c' ∈ cs,
                  ¬ Reach st.topics c.id c'.id ∧ ¬ Reach st.topics c'.id c.id :=
                (List.pairwise_cons.mp hpair).1
              have hpairtail := (List.pairwise_cons.mp hpair).2
              have hcsA : ∀ c' ∈ cs, c' ∈ stA.topics := by
                intro c' hc'
                exact (topA c').mpr ⟨hcs c' (List.mem_cons_of_mem _ hc'), (hhead c' hc').1⟩
              have hkeep : ∀ c' ∈ cs, ∀ t ∈ st.topics,
                  Reach st.topics c'.id t.id → t ∈ stA.topics := by
                intro c' hc' t htm hre
                refine (topA t).mpr ⟨htm, ?_⟩
                intro hrc
                exact closures_disjoint hnd (hhead c' hc').1 (hhead c' hc').2 hrc hre
              have htransfer : ∀ c' ∈ cs, ∀ y,
                  Reach stA.topics c'.id y ↔ Reach st.topics c'.id y := by
                intro c' hc' y
                constructor
                · exact reach_mono hsubsetA
                · exact fun hre =>
                    reach_restrict_closure (hkeep c' hc') Relation.ReflTransGen.refl hre
              have hpairA : cs.Pairwise
                  (fun c1 c2 =>
                    ¬ Reach stA.topics c1.id c2.id ∧ ¬ Reach stA.topics c2.id c1.id) := by
                refine hpairtail.imp_of_mem ?_
                intro c1 c2 _ _ h12
                exact ⟨fun hr => h12.1 (reach_mono hsubsetA hr),
                  fun hr => h12.2 (reach_mono hsubsetA hr)⟩
              obtain ⟨subB, topB, cardB, ordmemB, pwB⟩ :=
                ih stA hrkA hndA hcsA hpairA stB ordB hrest
              refine ⟨subB.trans subA, ?_, ?_, ?_, ?_⟩
              · intro x
                constructor
                · intro hx
                  obtain ⟨hxA, hallB⟩ := (topB x).mp hx
                  obtain ⟨hxst, hnrc⟩ := (topA x).mp hxA
                  refine ⟨hxst, ?_⟩
                  intro c'' hc''
                  rcases List.mem_cons.mp hc'' with rfl | hc''
                  · exact hnrc
                  · exact fun hr => hallB c'' hc'' ((htransfer c'' hc'' x.id).mpr hr)
                · rintro ⟨hxst, hall⟩
                  refine (topB x).mpr
                    ⟨(topA x).mpr ⟨hxst, hall c (List.mem_cons_self _ _)⟩, ?_⟩
                  intro c' hc' hr
                  exact hall c' (List.mem_cons_of_mem _ hc') (reach_mono hsubsetA hr)
              · intro cd
                constructor
                · intro hcd
                  obtain ⟨hcdA, hallB⟩ := (cardB cd).mp hcd
                  obtain ⟨hcdst, hnrc⟩ := (cardA cd).mp hcdA
                  refine ⟨hcdst, ?_⟩
                  intro c'' hc''
                  rcases List.mem_cons.mp hc'' with rfl | hc''
                  · exact hnrc
                  · rintro ⟨p, hp, hre⟩
                    exact hallB c'' hc'' ⟨p, hp, (htransfer c'' hc'' p).mpr hre⟩
                · rintro ⟨hcdst, hall⟩
                  refine (cardB cd).mpr
                    ⟨(cardA cd).mpr ⟨hcdst, hall c (List.mem_cons_self _ _)⟩, ?_⟩
                  rintro c' hc' ⟨p, hp, hre⟩
                  exact hall c' (List.mem_cons_of_mem _ hc') ⟨p, hp, reach_mono hsubsetA hre⟩
              · intro y
                rw [List.mem_append]
                constructor
                · rintro (hy | hy)
                  · exact ⟨c, List.mem_cons_self _ _, (ordmemA y).mp hy⟩
                  · obtain ⟨c', hc', hre⟩ := (ordmemB y).mp hy
                    exact ⟨c', List.mem_cons_of_mem _ hc', (htransfer c' hc' y).mp hre⟩
                · rintro ⟨c'', hc'', hre⟩
                  rcases List.mem_cons.mp hc'' with rfl | hc''
                  · exact Or.inl ((ordmemA y).mpr hre)
                  · exact Or.inr ((ordmemB y).mpr ⟨c'', hc'', (htransfer c'' hc'' y).mpr hre⟩)
              · rw [List.pairwise_append]
                refine ⟨pwA, ?_, ?_⟩
                · refine pwB.imp_of_mem ?_
                  intro a b ha hb hnab htg
                  obtain ⟨c', hc', hrA⟩ := (ordmemB a).mp ha
                  have hra : Reach st.topics c'.id a := (htransfer c' hc' a).mp hrA
                  exact hnab (transGen_restrict_closure (hkeep c' hc') hra htg)
                · intro a ha b hb htg
                  have hca : Reach st.topics c.id a := (ordmemA a).mp ha
                  obtain ⟨c', hc', hrB⟩ := (ordmemB b).mp hb
                  have hcb' : Reach st.topics c'.id b := (htransfer c' hc' b).mp hrB
                  have hcb : Reach st.topics c.id b :=
                    Relation.ReflTransGen.trans hca htg.to_reflTransGen
                  exact closures_disjoint hnd (hhead c' hc').1 (hhead c' hc').2 hcb hcb'

/-- Full correctness of `delete_recursive` on an acyclic store with
primary-key topic ids: it removes exactly the subtree of the argument,
removes exactly the cards assigned inside the subtree, and deletes
descendants before their ancestors. -/
lemma deleteRec_correct (rank : Nat → Nat) :
    ∀ (fuel : Nat) (st : St) (t : Topic),
      RankCert st.topics rank → (st.topics.map (·.id)).Nodup → t ∈ st.topics →
      ∀ st1 ord, deleteRec fuel st t = some (st1, ord) →
        List.Sublist st1.topics st.topics ∧
        (∀ x : Topic, x ∈ st1.topics ↔ x ∈ st.topics ∧ ¬ Reach st.topics t.id x.id) ∧
        (∀ cd : Card, cd ∈ st1.cards ↔ cd ∈ st.cards ∧
          ¬∃ p, cd.topic_id = some p ∧ Reach st.topics t.id p) ∧
        (∀ y, y ∈ ord ↔ Reach st.topics t.id y) ∧
        ord.Pairwise (fun a b => ¬ Relation.TransGen (ChildStep st.topics) a b) := by
  intro fuel
  induction fuel with
  | zero => intro st t _ _ _ st1 ord h; cases h
  | succ fuel ih =>
      intro st t hrk hnd ht st1 ord hrun
      rw [deleteRec] at hrun
      cases hlist : deleteRecList (deleteRec fuel)
          (st.topics.filter (fun c => c.parent_id == some t.id)) st with
      | none => rw [hlist] at hrun; simp at hrun
      | some pr =>
          obtain ⟨stL, ordL⟩ := pr
          rw [hlist] at hrun
          obtain ⟨hst1, hord⟩ :
              ({ topics := stL.topics.filter (fun x => x.id != t.id),
                 cards := stL.cards.filter (fun c => c.topic_id != some t.id) } : St) = st1 ∧
              ordL ++ [t.id] = ord := by
            have := Option.some_injective _ hrun
            exact ⟨congrArg Prod.fst this, congrArg Prod.snd this⟩
          subst hst1
          subst hord
          have hchsub : ∀ c ∈ st.topics.filter (fun c => c.parent_id == some t.id),
              c ∈ st.topics := fun c hc => (List.mem_filter.mp hc).1
          obtain ⟨subL, topL, cardL, ordmemL, pwL⟩ :=
            deleteRecList_correct rank (deleteRec fuel) ih
              (st.topics.filter (fun c => c.parent_id == some t.id)) st hrk hnd hchsub
              (children_pairwise hrk hnd t.id) stL ordL hlist
          have hdec : ∀ y, Reach st.topics t.id y ↔
              y = t.id ∨ ∃ c ∈ st.topics.filter (fun c => c.parent_id == some t.id),
                Reach st.topics c.id y := fun y => reach_head_decomp y
          refine ⟨?_, ?_, ?_, ?_, ?_⟩
          · exact (List.filter_sublist _).trans subL
          · intro x
            show x ∈ stL.topics.filter (fun x => x.id != t.id) ↔ _
            rw [List.mem_filter]
            constructor
            · rintro ⟨hxL, hxne⟩
              obtain ⟨hxst, hall⟩ := (topL x).mp hxL
              refine ⟨hxst, ?_⟩
              intro hr
              rcases (hdec x.id).mp hr with heq | ⟨c, hc, hrc⟩
              · exact (bne_iff_ne.mp hxne) heq
              · exact hall c hc hrc
            · rintro ⟨hxst, hnr⟩
              have hne : x.id ≠ t.id := fun h => hnr ((hdec x.id).mpr (Or.inl h))
              refine ⟨(topL x).mpr ⟨hxst, ?_⟩, bne_iff_ne.mpr hne⟩
              intro c hc hrc
              exact hnr ((hdec x.id).mpr (Or.inr ⟨c, hc, hrc⟩))
          · intro cd
            show cd ∈ stL.cards.filter (fun c => c.topic_id != some t.id) ↔ _
            rw [List.mem_filter]
            constructor
            · rintro ⟨hcdL, hcdne⟩
              obtain ⟨hcdst, hall⟩ := (cardL cd).mp hcdL
              refine ⟨hcdst, ?_⟩
              rintro ⟨p, hp, hre⟩
              rcases (hdec p).mp hre with heq | ⟨c, hc, hrc⟩
              · exact (bne_iff_ne.mp hcdne) (by rw [hp, heq])
              · exact hall c hc ⟨p, hp, hrc⟩
            · rintro ⟨hcdst, hnr⟩
              have hne : cd.topic_id ≠ some t.id := by
                intro h
                exact hnr ⟨t.id, h, Relation.ReflTransGen.refl⟩
              refine ⟨(cardL cd).mpr ⟨hcdst, ?_⟩, bne_iff_ne.mpr hne⟩
              rintro c hc ⟨p, hp, hrc⟩
              exact hnr ⟨p, hp, (hdec p).mpr (Or.inr ⟨c, hc, hrc⟩)⟩
          · intro y
            rw [List.mem_append, List.mem_singleton]
            constructor
            · rintro (hy | hy)
              · obtain ⟨c, hc, hrc⟩ := (ordmemL y).mp hy
                exact (hdec y).mpr (Or.inr ⟨c, hc, hrc⟩)
              · exact (hdec y).mpr (Or.inl hy)
            · intro hr
              rcases (hdec y).mp hr with heq | ⟨c, hc, hrc⟩
              · exact Or.inr heq
              · exact Or.inl ((ordmemL y).mpr ⟨c, hc, hrc⟩)
          · rw [List.pairwise_append]
            refine ⟨pwL, List.pairwise_singleton _ _, ?_⟩
            intro a ha b hb htg
            rw [List.mem_singleton] at hb
            subst hb
            obtain ⟨c, hc, hrc⟩ := (ordmemL a).mp ha
            have hc' := List.mem_filter.mp hc
            have hcp : c.parent_id = some t.id := by simpa using hc'.2
            have h1 : rank t.id < rank c.id := hrk c hc'.1 t.id (by simp [hcp])
            have h2 : rank c.id ≤ rank a := rank_le_of_reach hrk hrc
            have h3 : rank a < rank t.id := transGen_rank_lt hrk htg
            omega

/-- Under the same-user-parents invariant, child-link reachability from a
topic owned by `u` stays within `u`'s topics, so the resolver's
user-scoped reachability agrees with full-store reachability. -/
lemma reach_full_to_user {st : St} {u : Nat} (hsame : SameUserParents st)
    {a b : Nat} (ha : ∃ ta ∈ st.topics, ta.id = a ∧ ta.user_id = u)
    (h : Reach st.topics a b) : Reach (topicsOf st u) a b := by
  have hgen : (∃ tb ∈ st.topics, tb.id = b ∧ tb.user_id = u) ∧
      Reach (topicsOf st u) a b := by
    induction h with
    | refl => exact ⟨ha, Relation.ReflTransGen.refl⟩
    | tail hpre hstep ih =>
        rcases mem_childIds.mp hstep with ⟨tz, htzm, htzp, htzid⟩
        obtain ⟨⟨ty, htym, htyid, htyu⟩, hreach⟩ := ih
        have htzu : tz.user_id = u := by
          have heq := hsame tz htzm _ (by simp [htzp]) ty htym htyid
          rw [← heq]
          exact htyu
        have htzf : tz ∈ topicsOf st u := by
          rw [topicsOf, List.mem_filter]
          exact ⟨htzm, by simp [htzu]⟩
        have hstep' : ChildStep (topicsOf st u) _ tz.id :=
          mem_childIds.mpr ⟨tz, htzf, htzp, rfl⟩
        exact ⟨⟨tz, htzm, htzid, htzu⟩,
          Relation.ReflTransGen.tail hreach (htzid ▸ hstep')⟩
  exact hgen.2

/-! ### Claim C2: recursive topic deletion -/

/-- C2: on a well-formed store (primary-key topic ids, acyclic parent
links, parents within the same user), deleting a topic `T` owned by the
requester removes from the card store exactly the cards whose topic id
lies in the Scope Resolver's output for `T`, removes from the topic store
exactly `T` and its transitive descendants, and issues the topic
deletions so that no ancestor is deleted before one of its descendants
(the root last relative to its descendants). -/
theorem c2_delete_topic_cascade (st : St) (u : Nat) (T : Topic)
    (hnd : NodupIds st) (hacyc : Acyclic st.topics) (hsame : SameUserParents st)
    (hT : T ∈ st.topics) (hu : T.user_id = u) :
    ∃ fuel st' ord fuelS scope,
      delete_topic st u T.id fuel = some (200, st', ord) ∧
      getTopicScope st u T.id fuelS = some scope ∧
      (∀ cd : Card, cd ∈ st'.cards ↔ cd ∈ st.cards ∧
        ¬∃ p, cd.topic_id = some p ∧ p ∈ scope) ∧
      (∀ x : Topic, x ∈ st'.topics ↔ x ∈ st.topics ∧ ¬ Reach st.topics T.id x.id) ∧
      (∀ y, y ∈ ord ↔ Reach st.topics T.id y) ∧
      ord.Pairwise (fun a b => ¬ Relation.TransGen (ChildStep st.topics) a b) := by
  obtain ⟨rank, hrk⟩ := hacyc
  set B := ((T.id :: st.topics.map (·.id)).map rank).foldr max 0 with hB
  have hBids : ∀ t' ∈ st.topics, rank t'.id ≤ B := fun t' ht' =>
    le_foldr_max (List.mem_map_of_mem rank (List.mem_cons_of_mem _ (List.mem_map_of_mem _ ht')))
  have hBt : rank T.id ≤ B :=
    le_foldr_max (List.mem_map_of_mem rank (List.mem_cons_self _ _))
  obtain ⟨⟨st1, ordR⟩, hrec⟩ :=
    deleteRec_total rank B (B + 1) st T hrk hBids hBt (by omega)
  obtain ⟨subD, topD, cardD, ordD, pwD⟩ :=
    deleteRec_correct rank (B + 1) st T hrk hnd hT st1 ordR hrec
  have hacycU : Acyclic (topicsOf st u) :=
    ⟨rank, rankCert_subset (fun t htm => (List.mem_filter.mp htm).1) hrk⟩
  obtain ⟨fuelS, scope, hscope⟩ := getTopicScope_total st u T.id hacycU
  have hscope_mem := getTopicScope_mem hscope
  have hreach_iff : ∀ p, Reach (topicsOf st u) T.id p ↔ Reach st.topics T.id p := by
    intro p
    constructor
    · exact reach_mono (fun t htm => (List.mem_filter.mp htm).1)
    · exact reach_full_to_user hsame ⟨T, hT, rfl, hu⟩
  refine ⟨B + 1, st1, ordR, fuelS, scope, ?_, hscope, ?_, topD, ordD, pwD⟩
  · rw [delete_topic]
    have hfind : st.topics.find? (fun x => x.id == T.id) = some T := find?_by_id hnd hT
    rw [hfind]
    dsimp only
    rw [if_neg (by simp [hu]), hrec]
  · intro cd
    rw [cardD cd]
    constructor
    · rintro ⟨hcdst, hn⟩
      refine ⟨hcdst, ?_⟩
      rintro ⟨p, hp, hpscope⟩
      exact hn ⟨p, hp, (hreach_iff p).mp ((hscope_mem p).mp hpscope)⟩
    · rintro ⟨hcdst, hn⟩
      refine ⟨hcdst, ?_⟩
      rintro ⟨p, hp, hre⟩
      exact hn ⟨p, hp, (hscope_mem p).mpr ((hreach_iff p).mpr hre)⟩

theorem c2_delete_topic_cascade_witness :
    (NodupIds stW ∧ Acyclic stW.topics ∧ SameUserParents stW ∧
      (⟨1, "My Flashcards", 1, none, 0⟩ : Topic) ∈ stW.topics) ∧
    (∃ fuel st' ord fuelS scope,
      delete_topic stW 1 1 fuel = some (200, st', ord) ∧
      getTopicScope stW 1 1 fuelS = some scope ∧
      (∀ cd : Card, cd ∈ st'.cards ↔ cd ∈ stW.cards ∧
        ¬∃ p, cd.topic_id = some p ∧ p ∈ scope) ∧
      (∀ x : Topic, x ∈ st'.topics ↔ x ∈ stW.topics ∧ ¬ Reach stW.topics 1 x.id) ∧
      (∀ y, y ∈ ord ↔ Reach stW.topics 1 y) ∧
      ord.Pairwise (fun a b => ¬ Relation.TransGen (ChildStep stW.topics) a b)) :=
  ⟨⟨by decide, ⟨fun x => x, by decide⟩, by decide, by decide⟩,
    c2_delete_topic_cascade stW 1 ⟨1, "My Flashcards", 1, none, 0⟩
      (by decide) ⟨fun x => x, by decide⟩ (by decide) (by decide) rfl⟩

end Flashcards
